import Mathlib

/-!
# Detective Quest: exploring a mansion laid out as a binary tree

A shallow embedding of `src/algoritmos_avancados.c`.

* A `char` is a byte, kept as a `Nat` (its `unsigned char` value); a C string is
  the list of the bytes that come before its terminator.
* `Sala` is what a `Sala*` points to when the memory is tree shaped: either the
  null pointer or a room with its name and its two links.
* `stdin` is the list of bytes still to be read, `stdout` the list of bytes
  written so far.
* `size_t` is 64 bits wide; the only place where this matters is `cap - 1` in
  `appendSeguro` when `cap = 0`.
-/

namespace DetectiveQuest

/-! ## Characters and strings -/

/-- Bytes of a string literal. -/
def txt (s : String) : List Nat := s.toList.map Char.toNat

/-- Number of values of a `size_t`. -/
def SIZE_MOD : Nat := 2 ^ 64

/-- The `isspace` of the C locale: space, `\t`, `\n`, `\v`, `\f`, `\r`. -/
def isspace (c : Nat) : Bool := c == 32 || (9 ≤ c && c ≤ 13)

/-- The `tolower` of the C locale: only `A`..`Z` change. -/
def tolower (c : Nat) : Nat := if 65 ≤ c ∧ c ≤ 90 then c + 32 else c

/-- The library call `strncat(dest, src, n)`: at most `n` bytes of `src` are put
after `dest`, and a terminator after them. -/
def strncat (dest src : List Nat) (n : Nat) : List Nat := dest ++ src.take n

/-- Source lines 57-63. The content of `dest` after `appendSeguro(dest, cap, src)`. -/
def appendSeguro (dest : List Nat) (cap : Nat) (src : List Nat) : List Nat :=
  let lenDest := dest.length
  let lenSrc := src.length
  let capMenos1 := (cap + SIZE_MOD - 1) % SIZE_MOD
  if lenDest ≥ capMenos1 then dest
  else
    let espaco := capMenos1 - lenDest
    strncat dest src (if espaco < lenSrc then espaco else lenSrc)

/-! ## Reading a command -/

/-- The bytes `fgets` stores when it may still store `k` of them, and the input
left: it stops after a newline, at the end of the input, or when `k` bytes are
stored. -/
def lerBytes : Nat → List Nat → List Nat × List Nat
  | 0, entrada => ([], entrada)
  | _ + 1, [] => ([], [])
  | k + 1, c :: cs =>
    if c = 10 then ([c], cs)
    else (c :: (lerBytes k cs).1, (lerBytes k cs).2)

/-- The library call `fgets(linha, n, stdin)`: `none` is the null result (end of
input before any byte), otherwise the bytes stored and the input left. -/
def fgets (n : Nat) (entrada : List Nat) : Option (List Nat × List Nat) :=
  match entrada with
  | [] => none
  | _ :: _ => some (lerBytes (n - 1) entrada)

/-- Source lines 70-75: the scan of `linha` up to its terminator. -/
def primeiraOpcao : List Nat → Nat
  | [] => 0
  | c :: cs =>
    if c = 0 then 0
    else if !isspace c then tolower c
    else primeiraOpcao cs

/-- Source lines 66-76: the command read and the input left. -/
def lerOpcao (entrada : List Nat) : Nat × List Nat :=
  match fgets 128 entrada with
  | none => (115, entrada)
  | some (linha, resto) => (primeiraOpcao linha, resto)

/-! ## Rooms -/

/-- What a `Sala*` points to: nothing, or a room. -/
inductive Sala where
  | nulo : Sala
  | no (nome : List Nat) (esq dir : Sala) : Sala
  deriving DecidableEq, Repr

namespace Sala

/-- The test `if (p)` on a pointer. -/
def presente : Sala → Bool
  | nulo => false
  | no _ _ _ => true

/-- The field `p->nome`. -/
def nome : Sala → List Nat
  | nulo => []
  | no n _ _ => n

/-- The field `p->esq`. -/
def esq : Sala → Sala
  | nulo => nulo
  | no _ e _ => e

/-- The field `p->dir`. -/
def dir : Sala → Sala
  | nulo => nulo
  | no _ _ d => d

/-- Every name of the tree fits the field `char nome[64]` as a C string: at most
63 bytes, none of them the terminator. -/
def bemFormada : Sala → Bool
  | nulo => true
  | no n e d => decide (n.length ≤ 63) && n.all (fun c => c != 0) && bemFormada e && bemFormada d

end Sala

/-! ## Messages -/

/-- Source lines 106, 127, 136. -/
def msgEntrou (nome : List Nat) : List Nat :=
  txt "\n>>> Voce entrou em: " ++ nome ++ txt "\n"

/-- Source lines 112-113. -/
def msgSemSaida : List Nat :=
  txt "\nNao ha caminhos a esquerda nem a direita.\n" ++
  txt "Fim da exploracao: voce chegou a um comodo sem saidas.\n"

/-- Source line 122. -/
def msgEncerrada : List Nat := txt "\nExploracao encerrada pelo jogador.\n"

/-- Source line 131. -/
def msgEsquerdaInexistente (nome : List Nat) : List Nat :=
  txt "\nCaminho a ESQUERDA inexistente a partir de \"" ++ nome ++ txt "\".\n"

/-- Source line 140. -/
def msgDireitaInexistente (nome : List Nat) : List Nat :=
  txt "\nCaminho a DIREITA inexistente a partir de \"" ++ nome ++ txt "\".\n"

/-- Source line 143. -/
def msgInvalida : List Nat :=
  txt "\nOpcao invalida. Use 'e' (esquerda), 'd' (direita) ou 's' (sair).\n"

/-- Source lines 79-87: the text of the menu. -/
def mostrarMenu (atual : Sala) : List Nat :=
  txt "\nO que deseja fazer?\n" ++
  (if atual.esq.presente then txt "  [e] Ir para a ESQUERDA  -> " ++ atual.esq.nome ++ txt "\n"
   else txt "  [e] Esquerda indisponivel\n") ++
  (if atual.dir.presente then txt "  [d] Ir para a DIREITA   -> " ++ atual.dir.nome ++ txt "\n"
   else txt "  [d] Direita indisponivel\n") ++
  txt "  [s] Sair da exploracao\n" ++
  txt "Sua escolha: "

/-- Source lines 147-148. -/
def msgVisitadas (trilha : List Nat) : List Nat :=
  txt "\n--- Salas visitadas ---\n" ++
  (match trilha with
   | [] => txt "(nenhuma)"
   | _ :: _ => trilha) ++ txt "\n"

/-! ## The navigator -/

/-- The variables of `explorarSalas` together with the two streams. -/
structure Estado where
  atual : Sala
  trilha : List Nat
  entrada : List Nat
  saida : List Nat
  deriving DecidableEq, Repr

/-- How one pass through the body of `while (1)` ends. -/
inductive Passo where
  | continua (s : Estado)
  | fim (s : Estado)
  deriving DecidableEq, Repr

/-- Capacity of `trilha`. -/
def CAP : Nat := 1024

/-- The separator put between two names of the trail. -/
def SEP : List Nat := txt " -> "

/-- Source lines 110-144: one pass through the body of the loop. -/
def iteracao (s : Estado) : Passo :=
  if !s.atual.esq.presente && !s.atual.dir.presente then
    .fim { s with saida := s.saida ++ msgSemSaida }
  else
    let saida := s.saida ++ mostrarMenu s.atual
    let op := (lerOpcao s.entrada).1
    let entrada := (lerOpcao s.entrada).2
    if op = 115 then
      .fim { s with entrada := entrada, saida := saida ++ msgEncerrada }
    else if op = 101 then
      if s.atual.esq.presente then
        let atual := s.atual.esq
        .continua
          { atual := atual
            trilha := appendSeguro (appendSeguro s.trilha CAP SEP) CAP atual.nome
            entrada := entrada
            saida := saida ++ msgEntrou atual.nome }
      else
        .continua { s with entrada := entrada,
                           saida := saida ++ msgEsquerdaInexistente s.atual.nome }
    else if op = 100 then
      if s.atual.dir.presente then
        let atual := s.atual.dir
        .continua
          { atual := atual
            trilha := appendSeguro (appendSeguro s.trilha CAP SEP) CAP atual.nome
            entrada := entrada
            saida := saida ++ msgEntrou atual.nome }
      else
        .continua { s with entrada := entrada,
                           saida := saida ++ msgDireitaInexistente s.atual.nome }
    else
      .continua { s with entrada := entrada, saida := saida ++ msgInvalida }

/-- Source lines 100-107: the state on reaching `while (1)` for the first time. -/
def entrar (raiz : Sala) (entrada saida : List Nat) : Estado :=
  { atual := raiz
    trilha := appendSeguro [] CAP raiz.nome
    entrada := entrada
    saida := saida ++ msgEntrou raiz.nome }

/-- The loop `while (1)`, for at most `n` passes: the state at the `break`, or
`none` when `n` passes do not reach one. -/
def laco : Nat → Estado → Option Estado
  | 0, _ => none
  | n + 1, s =>
    match iteracao s with
    | .fim s' => some s'
    | .continua s' => laco n s'

/-- Source lines 147-148: the closing section, printed after the loop. -/
def concluir (s : Estado) : Estado :=
  { s with saida := s.saida ++ msgVisitadas s.trilha }

/-- Source lines 93-149. Every pass that does not leave the loop reads at least
one byte, so `entrada.length + 1` passes are enough (`laco_termina`). -/
def explorarSalas (raiz : Sala) (entrada saida : List Nat) : Option Estado :=
  if !raiz.presente then
    some { atual := raiz, trilha := [], entrada := entrada, saida := saida ++ txt "Mapa vazio.\n" }
  else
    (laco (entrada.length + 1) (entrar raiz entrada saida)).map concluir

/-- The states in which the loop of `explorarSalas raiz` can be at the top of a pass. -/
inductive Alcancavel (raiz : Sala) : Estado → Prop where
  | primeira (entrada saida : List Nat) (h : raiz.presente = true) :
      Alcancavel raiz (entrar raiz entrada saida)
  | passo {s s' : Estado} (hs : Alcancavel raiz s) (h : iteracao s = .continua s') :
      Alcancavel raiz s'

/-- The state after `k` passes, when none of them leaves the loop. -/
def avancar : Nat → Estado → Option Estado
  | 0, s => some s
  | k + 1, s =>
    match iteracao s with
    | .fim _ => none
    | .continua s' => avancar k s'

/-! ## The map built by `main` -/

/-- A `struct Sala` in memory; a link is an address, `0` being the null pointer. -/
structure Registro where
  nome : List Nat
  esq : Nat
  dir : Nat
  deriving DecidableEq, Repr

/-- The heap: the room at address `p + 1` is the entry of index `p`. -/
abbrev Memoria := List Registro

/-- Source lines 34-46, when `malloc` succeeds: the heap with the new room and
its address. `strncpy` keeps at most 63 bytes of the name and byte 63 is the
terminator. -/
def criarSala (m : Memoria) (nome : List Nat) : Memoria × Nat :=
  (m ++ [{ nome := nome.take 63, esq := 0, dir := 0 }], m.length + 1)

/-- The assignment `p->esq = q`. -/
def ligarEsq : Memoria → Nat → Nat → Memoria
  | [], _, _ => []
  | r :: m, 0, _ => r :: m
  | r :: m, 1, q => { r with esq := q } :: m
  | r :: m, p + 2, q => r :: ligarEsq m (p + 1) q

/-- The assignment `p->dir = q`. -/
def ligarDir : Memoria → Nat → Nat → Memoria
  | [], _, _ => []
  | r :: m, 0, _ => r :: m
  | r :: m, 1, q => { r with dir := q } :: m
  | r :: m, p + 2, q => r :: ligarDir m (p + 1) q

/-- The tree seen from address `p`, followed for at most `n` levels. -/
def arvoreDe : Nat → Memoria → Nat → Sala
  | 0, _, _ => .nulo
  | _ + 1, _, 0 => .nulo
  | n + 1, m, p + 1 =>
    match m.get? p with
    | none => .nulo
    | some r => .no r.nome (arvoreDe n m r.esq) (arvoreDe n m r.dir)

/-- Source lines 169-185: the heap after the seven rooms are created and linked,
and the address of the hall. -/
def construirMapa : Memoria × Nat :=
  let (m, hall) := criarSala [] (txt "Hall de entrada")
  let (m, estar) := criarSala m (txt "Sala de Estar")
  let (m, biblioteca) := criarSala m (txt "Biblioteca")
  let (m, cozinha) := criarSala m (txt "Cozinha")
  let (m, jardim) := criarSala m (txt "Jardim")
  let (m, escritorio) := criarSala m (txt "Escritorio")
  let (m, porao) := criarSala m (txt "Porao")
  let m := ligarEsq m hall estar
  let m := ligarDir m hall biblioteca
  let m := ligarEsq m estar cozinha
  let m := ligarDir m estar jardim
  let m := ligarEsq m biblioteca escritorio
  let m := ligarDir m biblioteca porao
  (m, hall)

/-- The reference tree: what `hall` points to when `explorarSalas(hall)` is called. -/
def mansao : Sala := arvoreDe construirMapa.1.length construirMapa.1 construirMapa.2

/-- Source lines 188-189: the banner. -/
def cabecalho : List Nat :=
  txt "=== Exploracao da Mansao (Arvore Binaria) ===\n" ++
  txt "Comece no Hall de entrada e escolha seu caminho.\n"

/-- Source lines 188-192: the banner, then the exploration of the mansion. -/
def main (entrada : List Nat) : Option Estado :=
  explorarSalas mansao entrada cabecalho

/-! ## Data of the examples -/

/-- The state after a move to the left (source lines 126-129). -/
def passoEsq (s : Estado) : Estado :=
  { atual := s.atual.esq
    trilha := appendSeguro (appendSeguro s.trilha CAP SEP) CAP s.atual.esq.nome
    entrada := (lerOpcao s.entrada).2
    saida := s.saida ++ mostrarMenu s.atual ++ msgEntrou s.atual.esq.nome }

/-- A name that fills the field `nome`: 63 times the letter `a`. -/
def nomeLongo : List Nat := List.replicate 63 97

/-- A corridor of `n` rooms, each one to the left of the one before, all of
them with the name `nomeLongo`. -/
def corredor : Nat → Sala
  | 0 => .nulo
  | n + 1 => .no nomeLongo (corredor n) .nulo

/-- The input of `k` lines `e`. -/
def linhasE : Nat → List Nat
  | 0 => []
  | k + 1 => 101 :: 10 :: linhasE k

/-- The corridor of 17 rooms after 14 moves to the left, one line `e` left to read. -/
def quaseCheio : Estado := passoEsq^[14] (entrar (corredor 17) (linhasE 15) [])

/-- A room with a way to the right only. -/
def salaSoDireita : Sala := .no (txt "Adega") .nulo (.no (txt "Sotao") .nulo .nulo)

/-- A room with no way out. -/
def salaSemSaida : Sala := .no (txt "Cofre") .nulo .nulo

/-- The command of a line as the specification words it: the lowercase form of
the first byte of the line that is not white space, or the empty command `0`
when the line has no such byte. -/
def comandoEspecificado (linha : List Nat) : Nat :=
  match linha.find? (fun c => !isspace c) with
  | some c => tolower c
  | none => 0

/-- The call `appendSeguro(dest, cap, src)` takes neither the early return of
source line 60 (buffer already full) nor the shortened count of source line 62
(`espaco < lenSrc`). -/
def appendCompleto (dest : List Nat) (cap : Nat) (src : List Nat) : Bool :=
  let capMenos1 := (cap + SIZE_MOD - 1) % SIZE_MOD
  !decide (dest.length ≥ capMenos1) && !decide (capMenos1 - dest.length < src.length)

/-- The rooms of the mansion, each with the trail that leads to it. -/
def trilhasDaMansao : List (Sala × List Nat) :=
  [(mansao, txt "Hall de entrada"),
   (mansao.esq, txt "Hall de entrada -> Sala de Estar"),
   (mansao.dir, txt "Hall de entrada -> Biblioteca"),
   (mansao.esq.esq, txt "Hall de entrada -> Sala de Estar -> Cozinha"),
   (mansao.esq.dir, txt "Hall de entrada -> Sala de Estar -> Jardim"),
   (mansao.dir.esq, txt "Hall de entrada -> Biblioteca -> Escritorio"),
   (mansao.dir.dir, txt "Hall de entrada -> Biblioteca -> Porao")]

/-! ## Places in the tree, release, and the whole of `main` -/

/-- The room found by following the links of `caminho` from a room: `false` is
the link `esq`, `true` the link `dir`. -/
def Sala.em : Sala → List Bool → Sala
  | s, [] => s
  | s, false :: c => Sala.em s.esq c
  | s, true :: c => Sala.em s.dir c

/-- Number of rooms of a tree. -/
def Sala.tamanho : Sala → Nat
  | .nulo => 0
  | .no _ e d => Sala.tamanho e + Sala.tamanho d + 1

/-- Number of levels of a tree: a room with no way out has one. -/
def Sala.altura : Sala → Nat
  | .nulo => 0
  | .no _ e d => max (Sala.altura e) (Sala.altura d) + 1

/-- Source lines 49-54: the calls of `free`, in order. A room is named by its
place, the list of the links that lead to it from the root of the whole tree;
`aqui` is the place of `raiz`. -/
def liberarArvore : List Bool → Sala → List (List Bool)
  | _, .nulo => []
  | aqui, .no _ e d =>
    liberarArvore (aqui ++ [false]) e ++ liberarArvore (aqui ++ [true]) d ++ [aqui]

/-- Source lines 167-199, the whole of `main`: the text printed, the input left
unread, and the rooms released, in order. The exploration never writes to a
room, so `hall` still points to the same tree when it is released. -/
def mainCompleto (entrada : List Nat) : Option (List Nat × List Nat × List (List Bool)) :=
  (main entrada).map fun f =>
    (f.saida ++ txt "\nObrigado por jogar!\n", f.entrada, liberarArvore [] mansao)

/-- Number of links of the heap that hold the address `p`. -/
def ligacoesPara (m : Memoria) (p : Nat) : Nat :=
  (m.filter fun r => r.esq == p).length + (m.filter fun r => r.dir == p).length

/-- The library call `strncpy(dst, src, n)`: the `n` bytes written to `dst`, which
are the bytes of `src` (at most `n` of them) and then zeros. -/
def strncpy (src : List Nat) (n : Nat) : List Nat :=
  src.take n ++ List.replicate (n - src.length) 0

/-- Source lines 41-42: the 64 bytes of the field `nome` of a new room. -/
def campoNome (nome : List Nat) : List Nat := strncpy nome 63 ++ [0]

/-- The C string held by an array: the bytes before the first terminator. -/
def cstr (buf : List Nat) : List Nat := buf.takeWhile fun c => c != 0

/-- The names of the rooms from a room down to the end of `caminho`. -/
def nomesAte : Sala → List Bool → List (List Nat)
  | s, [] => [s.nome]
  | s, false :: c => s.nome :: nomesAte s.esq c
  | s, true :: c => s.nome :: nomesAte s.dir c

/-- Names joined by the separator. -/
def juntar : List (List Nat) → List Nat
  | [] => []
  | [n] => n
  | n :: m :: ns => n ++ SEP ++ juntar (m :: ns)

/-- The pass at `s` takes one of the two branches that move the current room
(source lines 125-129 and 134-138). -/
def moveu (s : Estado) : Bool :=
  !(!s.atual.esq.presente && !s.atual.dir.presente) &&
  (((lerOpcao s.entrada).1 == 101 && s.atual.esq.presente) ||
   ((lerOpcao s.entrada).1 == 100 && s.atual.dir.presente))

/-- Number of moves made by the loop, run as in `laco`. -/
def movimentos : Nat → Estado → Nat
  | 0, _ => 0
  | n + 1, s =>
    match iteracao s with
    | .fim _ => 0
    | .continua s' => (if moveu s then 1 else 0) + movimentos n s'

/-- A room with an empty name and no way out. -/
def salaSemNome : Sala := .no [] .nulo .nulo

/-! ## Reading: auxiliary facts -/

theorem lerBytes_append (k : Nat) (entrada : List Nat) :
    (lerBytes k entrada).1 ++ (lerBytes k entrada).2 = entrada := by
  induction entrada generalizing k with
  | nil => cases k <;> simp [lerBytes]
  | cons c cs ih =>
    cases k with
    | zero => simp [lerBytes]
    | succ k =>
      by_cases hc : c = 10
      · simp [lerBytes, hc]
      · simp [lerBytes, hc, ih k]

theorem lerBytes_length (k : Nat) (entrada : List Nat) :
    (lerBytes k entrada).1.length + (lerBytes k entrada).2.length = entrada.length := by
  rw [← List.length_append, lerBytes_append]

theorem lerBytes_consome (k : Nat) (c : Nat) (cs : List Nat) :
    (lerBytes (k + 1) (c :: cs)).2.length < (c :: cs).length := by
  have h := lerBytes_length k cs
  by_cases hc : c = 10
  · simp [lerBytes, hc]
  · simp [lerBytes, hc]
    omega

/-- A command other than the one of the end of input costs at least one byte. -/
theorem lerOpcao_consome (entrada : List Nat) (h : (lerOpcao entrada).1 ≠ 115) :
    (lerOpcao entrada).2.length < entrada.length := by
  cases entrada with
  | nil => simp [lerOpcao, fgets] at h
  | cons c cs => exact lerBytes_consome 126 c cs

/-- At the end of the input the command is `s` and nothing is read. -/
theorem lerOpcao_nil : lerOpcao [] = (115, []) := rfl

/-- A line of white space only, however long, gives the empty command. -/
theorem primeiraOpcao_espacos (k : Nat) (linha resto : List Nat)
    (h : ∀ c ∈ linha, isspace c = true) :
    primeiraOpcao (lerBytes k (linha ++ 10 :: resto)).1 = 0 := by
  induction linha generalizing k with
  | nil =>
    cases k with
    | zero => simp [lerBytes, primeiraOpcao]
    | succ k => simp [lerBytes, primeiraOpcao, isspace]
  | cons c cs ih =>
    cases k with
    | zero => simp [lerBytes, primeiraOpcao]
    | succ k =>
      have hc : isspace c = true := h c (List.mem_cons_self c cs)
      have hc0 : c ≠ 0 := by
        intro h0
        rw [h0] at hc
        simp [isspace] at hc
      by_cases h10 : c = 10
      · simp [lerBytes, h10, primeiraOpcao, isspace]
      · have ih' := ih k (fun d hd => h d (List.mem_cons_of_mem c hd))
        simp [lerBytes, h10, primeiraOpcao, hc0, hc, ih']

/-! ## One pass of the loop: auxiliary facts -/

theorem iteracao_folha (s : Estado)
    (he : s.atual.esq.presente = false) (hd : s.atual.dir.presente = false) :
    iteracao s = .fim { s with saida := s.saida ++ msgSemSaida } := by
  simp [iteracao, he, hd]

theorem iteracao_sair (s : Estado)
    (hnf : (!s.atual.esq.presente && !s.atual.dir.presente) = false)
    (hop : (lerOpcao s.entrada).1 = 115) :
    iteracao s = .fim { s with entrada := (lerOpcao s.entrada).2,
                               saida := s.saida ++ mostrarMenu s.atual ++ msgEncerrada } := by
  simp only [iteracao, hnf, hop]
  simp

theorem iteracao_esquerda (s : Estado) (he : s.atual.esq.presente = true)
    (hop : (lerOpcao s.entrada).1 = 101) :
    iteracao s = .continua
      { atual := s.atual.esq
        trilha := appendSeguro (appendSeguro s.trilha CAP SEP) CAP s.atual.esq.nome
        entrada := (lerOpcao s.entrada).2
        saida := s.saida ++ mostrarMenu s.atual ++ msgEntrou s.atual.esq.nome } := by
  simp [iteracao, he, hop]

theorem iteracao_direita (s : Estado) (hd : s.atual.dir.presente = true)
    (hop : (lerOpcao s.entrada).1 = 100) :
    iteracao s = .continua
      { atual := s.atual.dir
        trilha := appendSeguro (appendSeguro s.trilha CAP SEP) CAP s.atual.dir.nome
        entrada := (lerOpcao s.entrada).2
        saida := s.saida ++ mostrarMenu s.atual ++ msgEntrou s.atual.dir.nome } := by
  simp [iteracao, hd, hop]

theorem iteracao_esquerda_ausente (s : Estado) (he : s.atual.esq.presente = false)
    (hd : s.atual.dir.presente = true) (hop : (lerOpcao s.entrada).1 = 101) :
    iteracao s = .continua
      { s with entrada := (lerOpcao s.entrada).2,
               saida := s.saida ++ mostrarMenu s.atual ++
                 msgEsquerdaInexistente s.atual.nome } := by
  simp [iteracao, he, hd, hop]

theorem iteracao_direita_ausente (s : Estado) (he : s.atual.esq.presente = true)
    (hd : s.atual.dir.presente = false) (hop : (lerOpcao s.entrada).1 = 100) :
    iteracao s = .continua
      { s with entrada := (lerOpcao s.entrada).2,
               saida := s.saida ++ mostrarMenu s.atual ++
                 msgDireitaInexistente s.atual.nome } := by
  simp [iteracao, he, hd, hop]

theorem iteracao_invalida (s : Estado)
    (hnf : (!s.atual.esq.presente && !s.atual.dir.presente) = false)
    (h115 : (lerOpcao s.entrada).1 ≠ 115) (h101 : (lerOpcao s.entrada).1 ≠ 101)
    (h100 : (lerOpcao s.entrada).1 ≠ 100) :
    iteracao s = .continua
      { s with entrada := (lerOpcao s.entrada).2,
               saida := s.saida ++ mostrarMenu s.atual ++ msgInvalida } := by
  simp only [iteracao, hnf, h115, h101, h100]
  simp

/-- What a pass that stays in the loop can do to the room and to the trail. -/
theorem iteracao_continua_casos (s s' : Estado) (h : iteracao s = .continua s') :
    (s'.atual = s.atual ∧ s'.trilha = s.trilha) ∨
    (s.atual.esq.presente = true ∧ s'.atual = s.atual.esq ∧
      s'.trilha = appendSeguro (appendSeguro s.trilha CAP SEP) CAP s.atual.esq.nome) ∨
    (s.atual.dir.presente = true ∧ s'.atual = s.atual.dir ∧
      s'.trilha = appendSeguro (appendSeguro s.trilha CAP SEP) CAP s.atual.dir.nome) := by
  unfold iteracao at h
  split at h
  · simp at h
  · simp only at h
    split at h
    · simp at h
    · split at h
      · split at h
        · rename_i he
          injection h with h
          subst h
          exact Or.inr (Or.inl ⟨he, rfl, rfl⟩)
        · injection h with h
          subst h
          exact Or.inl ⟨rfl, rfl⟩
      · split at h
        · split at h
          · rename_i hd
            injection h with h
            subst h
            exact Or.inr (Or.inr ⟨hd, rfl, rfl⟩)
          · injection h with h
            subst h
            exact Or.inl ⟨rfl, rfl⟩
        · injection h with h
          subst h
          exact Or.inl ⟨rfl, rfl⟩

/-- A pass that stays in the loop has read at least one byte. -/
theorem iteracao_continua_consome (s s' : Estado) (h : iteracao s = .continua s') :
    s'.entrada.length < s.entrada.length := by
  have hop : (lerOpcao s.entrada).1 ≠ 115 := by
    intro hop
    unfold iteracao at h
    split at h
    · simp at h
    · simp [hop] at h
  have hent : s'.entrada = (lerOpcao s.entrada).2 := by
    unfold iteracao at h
    split at h
    · simp at h
    · simp only at h
      split at h
      · simp at h
      · split at h
        · split at h <;> (injection h with h; subst h; rfl)
        · split at h
          · split at h <;> (injection h with h; subst h; rfl)
          · injection h with h
            subst h
            rfl
  rw [hent]
  exact lerOpcao_consome s.entrada hop

/-- The loop ends: more passes than bytes left are never needed. -/
theorem laco_termina (n : Nat) (s : Estado) (h : s.entrada.length < n) :
    ∃ f, laco n s = some f := by
  induction n generalizing s with
  | zero => omega
  | succ n ih =>
    unfold laco
    cases hi : iteracao s with
    | fim f => exact ⟨f, rfl⟩
    | continua s' =>
      have := iteracao_continua_consome s s' hi
      exact ih s' (by omega)

theorem alcancavel_avancar (raiz : Sala) (k : Nat) (s s' : Estado)
    (hs : Alcancavel raiz s) (h : avancar k s = some s') : Alcancavel raiz s' := by
  induction k generalizing s with
  | zero =>
    simp [avancar] at h
    exact h ▸ hs
  | succ k ih =>
    unfold avancar at h
    cases hi : iteracao s with
    | fim f => simp [hi] at h
    | continua t =>
      simp only [hi] at h
      exact ih t (Alcancavel.passo hs hi) h

/-! ## The bounded append: auxiliary facts -/

theorem capMenos1_eq (cap : Nat) (h1 : 1 ≤ cap) (h2 : cap ≤ SIZE_MOD) :
    (cap + SIZE_MOD - 1) % SIZE_MOD = cap - 1 := by
  have h : cap + SIZE_MOD - 1 = (cap - 1) + SIZE_MOD := by omega
  rw [h, Nat.add_mod_right]
  exact Nat.mod_eq_of_lt (by omega)

theorem take_se (src : List Nat) (espaco : Nat) :
    src.take (if espaco < src.length then espaco else src.length) = src.take espaco := by
  split
  · rfl
  · rw [List.take_length, List.take_of_length_le (by omega)]

/-- What `appendSeguro` leaves in a buffer whose content fits it. -/
theorem appendSeguro_take (dest src : List Nat) (cap : Nat) (h1 : 1 ≤ cap)
    (h2 : cap ≤ SIZE_MOD) (hd : dest.length ≤ cap - 1) :
    appendSeguro dest cap src = (dest ++ src).take (cap - 1) := by
  unfold appendSeguro
  simp only [capMenos1_eq cap h1 h2, strncat, take_se]
  rw [List.take_append_eq_append_take, List.take_of_length_le hd]
  split
  · have : cap - 1 - dest.length = 0 := by omega
    simp [this]
  · rfl

/-- The old content is always kept, at the front. -/
theorem appendSeguro_prefixo (dest src : List Nat) (cap : Nat) :
    dest <+: appendSeguro dest cap src := by
  unfold appendSeguro
  simp only [strncat]
  split
  · exact List.prefix_refl dest
  · exact List.prefix_append dest _

theorem appendSeguro_CAP (dest src : List Nat) (hd : dest.length ≤ 1023) :
    appendSeguro dest CAP src = (dest ++ src).take 1023 :=
  appendSeguro_take dest src CAP (by decide) (by decide) hd

theorem appendSeguro_CAP_length (dest src : List Nat) (hd : dest.length ≤ 1023) :
    (appendSeguro dest CAP src).length ≤ 1023 := by
  rw [appendSeguro_CAP dest src hd, List.length_take]
  omega

theorem appendSeguro_CAP_cabe (dest src : List Nat) (h : dest.length + src.length ≤ 1023) :
    appendSeguro dest CAP src = dest ++ src := by
  rw [appendSeguro_CAP dest src (by omega)]
  exact List.take_of_length_le (by simp; omega)

theorem take_take_append (a b : List Nat) (n : Nat) :
    (a.take n ++ b).take n = (a ++ b).take n := by
  by_cases h : a.length ≤ n
  · rw [List.take_of_length_le h]
  · rw [List.take_append_eq_append_take, List.take_append_eq_append_take]
    have h1 : (List.take n a).length = n := by rw [List.length_take]; omega
    have h2 : n - a.length = 0 := by omega
    simp [h1, h2]

/-- The two appends of a move, taken together. -/
theorem appendSeguro_mover (trilha nome : List Nat) (h : trilha.length ≤ 1023) :
    appendSeguro (appendSeguro trilha CAP SEP) CAP nome
      = (trilha ++ SEP ++ nome).take 1023 := by
  rw [appendSeguro_CAP _ _ (appendSeguro_CAP_length trilha SEP h), appendSeguro_CAP _ _ h]
  exact take_take_append _ _ _

/-- The trail never holds more than the 1023 bytes that fit before the terminator. -/
theorem alcancavel_trilha_length (raiz : Sala) (s : Estado) (hs : Alcancavel raiz s) :
    s.trilha.length ≤ 1023 := by
  induction hs with
  | primeira entrada saida _ =>
    exact appendSeguro_CAP_length [] raiz.nome (by simp)
  | passo hs h ih =>
    rcases iteracao_continua_casos _ _ h with ⟨_, ht⟩ | ⟨_, _, ht⟩ | ⟨_, _, ht⟩
    · rw [ht]; exact ih
    · rw [ht]
      exact appendSeguro_CAP_length _ _ (appendSeguro_CAP_length _ _ ih)
    · rw [ht]
      exact appendSeguro_CAP_length _ _ (appendSeguro_CAP_length _ _ ih)

/-! ## The corridor -/

theorem iteracao_passoEsq (s : Estado) (he : s.atual.esq.presente = true)
    (hop : (lerOpcao s.entrada).1 = 101) : iteracao s = .continua (passoEsq s) :=
  iteracao_esquerda s he hop

theorem lerOpcao_linhasE (k : Nat) : lerOpcao (linhasE (k + 1)) = (101, linhasE k) := by
  simp [linhasE, lerOpcao, fgets, lerBytes, primeiraOpcao, isspace, tolower]

theorem corredor_passos (k : Nat) (hk : k ≤ 14) :
    Alcancavel (corredor 17) (passoEsq^[k] (entrar (corredor 17) (linhasE 15) [])) ∧
    (passoEsq^[k] (entrar (corredor 17) (linhasE 15) [])).atual = corredor (17 - k) ∧
    (passoEsq^[k] (entrar (corredor 17) (linhasE 15) [])).entrada = linhasE (15 - k) ∧
    (passoEsq^[k] (entrar (corredor 17) (linhasE 15) [])).trilha.length = 63 + 67 * k := by
  induction k with
  | zero =>
    refine ⟨Alcancavel.primeira _ _ rfl, rfl, rfl, ?_⟩
    simp only [Function.iterate_zero, id_eq, entrar]
    rw [appendSeguro_CAP_cabe [] _ (by simp [corredor, Sala.nome, nomeLongo])]
    simp [corredor, Sala.nome, nomeLongo]
  | succ k ih =>
    obtain ⟨hal, hat, hen, htr⟩ := ih (by omega)
    rw [Function.iterate_succ_apply']
    generalize passoEsq^[k] (entrar (corredor 17) (linhasE 15) []) = s at hal hat hen htr
    obtain ⟨m, hm⟩ : ∃ m, 17 - k = m + 2 := ⟨15 - k, by omega⟩
    obtain ⟨j, hj⟩ : ∃ j, 15 - k = j + 1 := ⟨14 - k, by omega⟩
    rw [hm] at hat
    rw [hj] at hen
    have he : s.atual.esq.presente = true := by simp [hat, corredor, Sala.esq, Sala.presente]
    have hop : (lerOpcao s.entrada).1 = 101 := by rw [hen, lerOpcao_linhasE]
    have hnome : s.atual.esq.nome = nomeLongo := by simp [hat, corredor, Sala.esq, Sala.nome]
    refine ⟨Alcancavel.passo hal (iteracao_passoEsq s he hop), ?_, ?_, ?_⟩
    · have : 17 - (k + 1) = m + 1 := by omega
      simp [passoEsq, hat, this, corredor, Sala.esq]
    · have : 15 - (k + 1) = j := by omega
      simp [passoEsq, hen, this, lerOpcao_linhasE]
    · simp only [passoEsq, hnome]
      have hsep : SEP.length = 4 := rfl
      have hnl : nomeLongo.length = 63 := rfl
      rw [appendSeguro_CAP_cabe s.trilha SEP (by omega)]
      rw [appendSeguro_CAP_cabe _ nomeLongo (by simp [hsep, hnl]; omega)]
      simp [hsep, hnl]
      omega

/-! ## The end of the loop -/

/-- Leaving the loop changes neither the current room nor the trail. -/
theorem iteracao_fim_mantem (s f : Estado) (h : iteracao s = .fim f) :
    f.atual = s.atual ∧ f.trilha = s.trilha := by
  unfold iteracao at h
  split at h
  · injection h with h
    subst h
    exact ⟨rfl, rfl⟩
  · simp only at h
    split at h
    · injection h with h
      subst h
      exact ⟨rfl, rfl⟩
    · split at h
      · split at h <;> simp at h
      · split at h
        · split at h <;> simp at h
        · simp at h

/-- The state in which the loop ends has the room and the trail of a state at
the top of a pass. -/
theorem laco_fim (raiz : Sala) (n : Nat) (s f : Estado) (hs : Alcancavel raiz s)
    (h : laco n s = some f) :
    ∃ s', Alcancavel raiz s' ∧ f.atual = s'.atual ∧ f.trilha = s'.trilha := by
  induction n generalizing s with
  | zero => simp [laco] at h
  | succ n ih =>
    unfold laco at h
    cases hi : iteracao s with
    | fim g =>
      simp only [hi, Option.some.injEq] at h
      subst h
      exact ⟨s, hs, (iteracao_fim_mantem s g hi).1, (iteracao_fim_mantem s g hi).2⟩
    | continua t =>
      simp only [hi] at h
      exact ih t (Alcancavel.passo hs hi) h

/-- The exploration of a map that is not empty ends, with the room and the
trail of a state at the top of a pass. -/
theorem explorarSalas_termina (raiz : Sala) (entrada saida : List Nat)
    (hp : raiz.presente = true) :
    ∃ f s', explorarSalas raiz entrada saida = some f ∧ Alcancavel raiz s' ∧
      f.atual = s'.atual ∧ f.trilha = s'.trilha := by
  obtain ⟨g, hg⟩ := laco_termina (entrada.length + 1) (entrar raiz entrada saida)
    (Nat.lt_succ_self _)
  obtain ⟨s', hs', ha, ht⟩ := laco_fim raiz _ _ g (Alcancavel.primeira entrada saida hp) hg
  refine ⟨concluir g, s', ?_, hs', ha, ht⟩
  simp [explorarSalas, hp, hg]

/-! ## The trail and the name of the root -/

theorem bemFormada_nome (raiz : Sala) (h : raiz.bemFormada = true) :
    raiz.nome.length ≤ 63 := by
  cases raiz with
  | nulo => simp [Sala.nome]
  | no n e d =>
    simp only [Sala.bemFormada, Bool.and_eq_true, decide_eq_true_eq] at h
    exact h.1.1.1

/-- Every trail of the session starts with the first trail. -/
theorem alcancavel_prefixo (raiz : Sala) (s : Estado) (hs : Alcancavel raiz s) :
    appendSeguro [] CAP raiz.nome <+: s.trilha := by
  induction hs with
  | primeira entrada saida _ => exact List.prefix_refl _
  | passo hs h ih =>
    rcases iteracao_continua_casos _ _ h with ⟨_, ht⟩ | ⟨_, _, ht⟩ | ⟨_, _, ht⟩
    · rw [ht]; exact ih
    · rw [ht]
      exact ih.trans ((appendSeguro_prefixo _ _ _).trans (appendSeguro_prefixo _ _ _))
    · rw [ht]
      exact ih.trans ((appendSeguro_prefixo _ _ _).trans (appendSeguro_prefixo _ _ _))

/-! ## The mansion -/

theorem appendCompleto_eq (dest src : List Nat) (cap : Nat)
    (h : appendCompleto dest cap src = true) : appendSeguro dest cap src = dest ++ src := by
  simp only [appendCompleto, Bool.and_eq_true, Bool.not_eq_true', decide_eq_false_iff_not] at h
  unfold appendSeguro
  simp only [strncat, h.1, h.2, if_false, List.take_length]

/-- At the top of every pass the current room and the trail are one of the seven
pairs of `trilhasDaMansao`. -/
theorem mansao_alcancavel (s : Estado) (hs : Alcancavel mansao s) :
    (s.atual, s.trilha) ∈ trilhasDaMansao := by
  have hesq : ∀ p ∈ trilhasDaMansao, p.1.esq.presente = true →
      (p.1.esq, appendSeguro (appendSeguro p.2 CAP SEP) CAP p.1.esq.nome)
        ∈ trilhasDaMansao := by decide
  have hdir : ∀ p ∈ trilhasDaMansao, p.1.dir.presente = true →
      (p.1.dir, appendSeguro (appendSeguro p.2 CAP SEP) CAP p.1.dir.nome)
        ∈ trilhasDaMansao := by decide
  induction hs with
  | primeira entrada saida _ =>
    show (mansao, appendSeguro [] CAP mansao.nome) ∈ trilhasDaMansao
    decide
  | passo hs h ih =>
    rcases iteracao_continua_casos _ _ h with ⟨ha, ht⟩ | ⟨he, ha, ht⟩ | ⟨hd, ha, ht⟩
    · rw [ha, ht]; exact ih
    · rw [ha, ht]; exact hesq _ ih he
    · rw [ha, ht]; exact hdir _ ih hd

/-! ## Whole lines -/

/-- A line that fits the buffer of `fgets` is stored whole, with its newline. -/
theorem lerBytes_linha (k : Nat) (linha resto : List Nat) (hnl : ∀ c ∈ linha, c ≠ 10)
    (hlen : linha.length < k) :
    lerBytes k (linha ++ 10 :: resto) = (linha ++ [10], resto) := by
  induction linha generalizing k with
  | nil =>
    cases k with
    | zero => simp at hlen
    | succ k => simp [lerBytes]
  | cons c cs ih =>
    cases k with
    | zero => simp at hlen
    | succ k =>
      have hc : c ≠ 10 := hnl c (List.mem_cons_self c cs)
      have ih' := ih k (fun d hd => hnl d (List.mem_cons_of_mem c hd))
        (by simp at hlen; omega)
      simp [lerBytes, hc, ih']

/-- The scan of the stored line finds what the specification describes. -/
theorem primeiraOpcao_linha (linha : List Nat) :
    primeiraOpcao (linha ++ [10]) = comandoEspecificado linha := by
  induction linha with
  | nil => simp [primeiraOpcao, comandoEspecificado, isspace]
  | cons c cs ih =>
    by_cases h0 : c = 0
    · subst h0
      simp [primeiraOpcao, comandoEspecificado, isspace, tolower]
    · by_cases hsp : isspace c = true
      · unfold comandoEspecificado at ih
        simp [primeiraOpcao, comandoEspecificado, h0, hsp, ih]
      · simp [primeiraOpcao, comandoEspecificado, h0, hsp]

/-! ## The input read by the loop -/

/-- A line that fits the buffer is read whole and gives the command that the
specification describes. -/
theorem lerOpcao_linha (linha resto : List Nat) (hnl : ∀ c ∈ linha, c ≠ 10)
    (hlen : linha.length ≤ 126) :
    lerOpcao (linha ++ 10 :: resto) = (comandoEspecificado linha, resto) := by
  have hb := lerBytes_linha 127 linha resto hnl (by omega)
  cases linha with
  | nil => simp [lerOpcao, fgets, lerBytes, primeiraOpcao, isspace, comandoEspecificado]
  | cons c cs =>
    simp only [List.cons_append] at hb
    simp only [lerOpcao, fgets, List.cons_append, hb]
    rw [← List.cons_append, primeiraOpcao_linha]

/-- What is left after a command is read is the end of what was there. -/
theorem lerOpcao_sufixo (entrada : List Nat) : (lerOpcao entrada).2 <:+ entrada := by
  cases entrada with
  | nil => exact List.suffix_refl _
  | cons c cs =>
    simp only [lerOpcao, fgets]
    exact ⟨(lerBytes 127 (c :: cs)).1, lerBytes_append 127 (c :: cs)⟩

/-- A pass that stays in the loop leaves the input that `lerOpcao` leaves. -/
theorem iteracao_continua_entrada (s s' : Estado) (h : iteracao s = .continua s') :
    s'.entrada = (lerOpcao s.entrada).2 := by
  unfold iteracao at h
  split at h
  · simp at h
  · simp only at h
    split at h
    · simp at h
    · split at h
      · split at h <;> (injection h with h; subst h; rfl)
      · split at h
        · split at h <;> (injection h with h; subst h; rfl)
        · injection h with h
          subst h
          rfl

theorem iteracao_entrada_continua (s s' : Estado) (h : iteracao s = .continua s') :
    s'.entrada <:+ s.entrada := by
  rw [iteracao_continua_entrada s s' h]
  exact lerOpcao_sufixo s.entrada

theorem laco_succ_continua (n : Nat) (s s' : Estado) (h : iteracao s = .continua s') :
    laco (n + 1) s = laco n s' := by
  simp only [laco, h]

theorem laco_succ_fim (n : Nat) (s f : Estado) (h : iteracao s = .fim f) :
    laco (n + 1) s = some f := by
  simp only [laco, h]

theorem avancar_succ (k : Nat) (s s' : Estado) (h : iteracao s = .continua s') :
    avancar (k + 1) s = avancar k s' := by
  simp only [avancar, h]

/-- The loop ends in a pass that leaves it, made at a state at the top of a pass. -/
theorem laco_ultimo (raiz : Sala) (n : Nat) (s g : Estado) (hs : Alcancavel raiz s)
    (h : laco n s = some g) :
    ∃ s', Alcancavel raiz s' ∧ iteracao s' = .fim g ∧ s'.entrada <:+ s.entrada := by
  induction n generalizing s with
  | zero => simp [laco] at h
  | succ n ih =>
    cases hi : iteracao s with
    | fim f =>
      rw [laco_succ_fim n s f hi] at h
      injection h with h
      subst h
      exact ⟨s, hs, hi, List.suffix_refl _⟩
    | continua t =>
      rw [laco_succ_continua n s t hi] at h
      obtain ⟨s', hs', hf, hsuf⟩ := ih t (Alcancavel.passo hs hi) h
      exact ⟨s', hs', hf, hsuf.trans (iteracao_entrada_continua s t hi)⟩

theorem arvoreDe_nulo (n : Nat) (m : Memoria) : arvoreDe n m 0 = .nulo := by
  cases n <;> rfl

/-- The C string of an array stops at its first zero byte. -/
theorem cstr_append_zero (l r : List Nat) (hl : ∀ c ∈ l, c ≠ 0) : cstr (l ++ 0 :: r) = l := by
  induction l with
  | nil => simp [cstr, List.takeWhile]
  | cons c cs ih =>
    have hc : c ≠ 0 := hl c (List.mem_cons_self c cs)
    have ih' := ih (fun d hd => hl d (List.mem_cons_of_mem c hd))
    have hb : (c != 0) = true := by simpa using hc
    unfold cstr at ih' ⊢
    simp [List.takeWhile, hb, ih']

/-- The field `nome` of a new room holds, as a C string, the first 63 bytes of
the name given. -/
theorem cstr_campoNome (nome : List Nat) (hnome : ∀ c ∈ nome, c ≠ 0) :
    cstr (campoNome nome) = nome.take 63 := by
  have h : campoNome nome = nome.take 63 ++ 0 :: List.replicate (63 - nome.length) 0 := by
    simp only [campoNome, strncpy, List.append_assoc]
    congr 1
    rw [← List.replicate_succ', List.replicate_succ]
  rw [h]
  exact cstr_append_zero _ _ (fun c hc => hnome c (List.mem_of_mem_take hc))

theorem campoNome_length (nome : List Nat) : (campoNome nome).length = 64 := by
  simp only [campoNome, strncpy, List.length_append, List.length_take, List.length_replicate,
    List.length_singleton]
  omega

/-! ## Release -/

theorem em_nulo (c : List Bool) : Sala.em .nulo c = .nulo := by
  induction c with
  | nil => rfl
  | cons b c ih => cases b <;> simpa [Sala.em, Sala.esq, Sala.dir] using ih

/-- The rooms released are the rooms of the tree, each under its place. -/
theorem mem_liberarArvore (t : Sala) (aqui x : List Bool) :
    x ∈ liberarArvore aqui t ↔ ∃ c, x = aqui ++ c ∧ (t.em c).presente = true := by
  induction t generalizing aqui with
  | nulo => simp [liberarArvore, em_nulo, Sala.presente]
  | no n e d ihe ihd =>
    simp only [liberarArvore, List.mem_append, List.mem_singleton, ihe, ihd]
    constructor
    · rintro ((⟨c, hx, hp⟩ | ⟨c, hx, hp⟩) | hx)
      · exact ⟨false :: c, by simp [hx], by simpa [Sala.em, Sala.esq] using hp⟩
      · exact ⟨true :: c, by simp [hx], by simpa [Sala.em, Sala.dir] using hp⟩
      · exact ⟨[], by simp [hx], rfl⟩
    · rintro ⟨c, hx, hp⟩
      match c, hx, hp with
      | [], hx, _ => exact Or.inr (by simpa using hx)
      | false :: c, hx, hp =>
        exact Or.inl (Or.inl ⟨c, by simp [hx], by simpa [Sala.em, Sala.esq] using hp⟩)
      | true :: c, hx, hp =>
        exact Or.inl (Or.inr ⟨c, by simp [hx], by simpa [Sala.em, Sala.dir] using hp⟩)

/-- Nothing released after a room is that room or is below it. -/
theorem liberarArvore_ordem (t : Sala) (aqui : List Bool) :
    (liberarArvore aqui t).Pairwise (fun p q => ¬ p <+: q) := by
  induction t generalizing aqui with
  | nulo => exact List.Pairwise.nil
  | no n e d ihe ihd =>
    simp only [liberarArvore]
    rw [List.pairwise_append, List.pairwise_append]
    refine ⟨⟨ihe _, ihd _, ?_⟩, List.pairwise_singleton _ _, ?_⟩
    · intro a ha b hb hab
      obtain ⟨c1, h1, _⟩ := (mem_liberarArvore e _ a).mp ha
      obtain ⟨c2, h2, _⟩ := (mem_liberarArvore d _ b).mp hb
      obtain ⟨r, hr⟩ := hab
      rw [h1, h2] at hr
      simp at hr
    · intro a ha b hb hab
      rw [List.mem_singleton] at hb
      have hlen := hab.length_le
      rw [hb] at hlen
      rcases List.mem_append.mp ha with ha | ha
      · obtain ⟨c1, h1, _⟩ := (mem_liberarArvore e _ a).mp ha
        rw [h1] at hlen
        simp at hlen
      · obtain ⟨c1, h1, _⟩ := (mem_liberarArvore d _ a).mp ha
        rw [h1] at hlen
        simp at hlen

theorem liberarArvore_length (t : Sala) (aqui : List Bool) :
    (liberarArvore aqui t).length = t.tamanho := by
  induction t generalizing aqui with
  | nulo => rfl
  | no n e d ihe ihd =>
    simp only [liberarArvore, List.length_append, List.length_singleton, Sala.tamanho, ihe, ihd]

/-! ## Counting moves and lines -/

/-- The exploration of a map that is not empty ends, by a pass that leaves the
loop. -/
theorem explorarSalas_fim (raiz : Sala) (entrada saida : List Nat)
    (hp : raiz.presente = true) :
    ∃ g s, explorarSalas raiz entrada saida = some (concluir g) ∧
      laco (entrada.length + 1) (entrar raiz entrada saida) = some g ∧
      Alcancavel raiz s ∧ iteracao s = .fim g ∧ s.entrada <:+ entrada := by
  obtain ⟨g, hg⟩ := laco_termina (entrada.length + 1) (entrar raiz entrada saida)
    (Nat.lt_succ_self _)
  obtain ⟨s, hs, hf, hsuf⟩ := laco_ultimo raiz _ _ g (Alcancavel.primeira entrada saida hp) hg
  refine ⟨g, s, ?_, hg, hs, hf, hsuf⟩
  simp [explorarSalas, hp, hg]

/-! ## The trail and the way from the root -/

theorem em_snoc (t : Sala) (c : List Bool) (b : Bool) :
    t.em (c ++ [b]) = if b then (t.em c).dir else (t.em c).esq := by
  induction c generalizing t with
  | nil => cases b <;> rfl
  | cons a c ih => cases a <;> simpa [Sala.em] using ih _

theorem nomesAte_snoc (t : Sala) (c : List Bool) (b : Bool) :
    nomesAte t (c ++ [b]) = nomesAte t c ++ [(t.em (c ++ [b])).nome] := by
  induction c generalizing t with
  | nil => cases b <;> rfl
  | cons a c ih => cases a <;> simp [nomesAte, Sala.em, ih]

theorem nomesAte_length (t : Sala) (c : List Bool) : (nomesAte t c).length = c.length + 1 := by
  induction c generalizing t with
  | nil => rfl
  | cons a c ih => cases a <;> simp [nomesAte, ih]

theorem juntar_snoc (ns : List (List Nat)) (m : List Nat) (h : ns ≠ []) :
    juntar (ns ++ [m]) = juntar ns ++ SEP ++ m := by
  induction ns with
  | nil => exact absurd rfl h
  | cons n ns ih =>
    cases ns with
    | nil => simp [juntar]
    | cons k ks =>
      have ih' : juntar (k :: (ks ++ [m])) = juntar (k :: ks) ++ SEP ++ m :=
        ih (List.cons_ne_nil k ks)
      show n ++ SEP ++ juntar (k :: (ks ++ [m])) = n ++ SEP ++ juntar (k :: ks) ++ SEP ++ m
      rw [ih']
      simp only [List.append_assoc]

/-- The trail of a step down, after the trail of the room above. -/
theorem juntar_nomesAte_snoc (t : Sala) (c : List Bool) (b : Bool) :
    juntar (nomesAte t (c ++ [b])) = juntar (nomesAte t c) ++ SEP ++ (t.em (c ++ [b])).nome := by
  rw [nomesAte_snoc]
  apply juntar_snoc
  intro h
  have := nomesAte_length t c
  rw [h] at this
  simp at this

/-- At the top of every pass the current room is a room of the tree, and the
trail is what fits the buffer of the names on the way to it. -/
theorem alcancavel_caminho (raiz : Sala) (s : Estado) (hs : Alcancavel raiz s) :
    ∃ c, raiz.em c = s.atual ∧ s.atual.presente = true ∧
      s.trilha = (juntar (nomesAte raiz c)).take 1023 := by
  induction hs with
  | primeira entrada saida hp =>
    refine ⟨[], rfl, hp, ?_⟩
    show appendSeguro [] CAP raiz.nome = _
    rw [appendSeguro_CAP [] raiz.nome (by simp)]
    rfl
  | @passo s s' hs h ih =>
    obtain ⟨c, hc, hp, ht⟩ := ih
    have hl := alcancavel_trilha_length raiz s hs
    rcases iteracao_continua_casos _ _ h with ⟨ha, ht'⟩ | ⟨he, ha, ht'⟩ | ⟨hd, ha, ht'⟩
    · exact ⟨c, by rw [ha, hc], by rw [ha]; exact hp, by rw [ht', ht]⟩
    · have hem : raiz.em (c ++ [false]) = s.atual.esq := by rw [em_snoc, hc]; rfl
      refine ⟨c ++ [false], by rw [ha, hem], by rw [ha]; exact he, ?_⟩
      rw [ht', appendSeguro_mover _ _ hl, juntar_nomesAte_snoc, hem, ht, List.append_assoc,
        List.append_assoc, take_take_append]
    · have hem : raiz.em (c ++ [true]) = s.atual.dir := by rw [em_snoc, hc]; rfl
      refine ⟨c ++ [true], by rw [ha, hem], by rw [ha]; exact hd, ?_⟩
      rw [ht', appendSeguro_mover _ _ hl, juntar_nomesAte_snoc, hem, ht, List.append_assoc,
        List.append_assoc, take_take_append]

theorem iteracao_continua_prefixo (s s' : Estado) (h : iteracao s = .continua s') :
    s.trilha <+: s'.trilha := by
  rcases iteracao_continua_casos _ _ h with ⟨_, ht⟩ | ⟨_, _, ht⟩ | ⟨_, _, ht⟩
  · rw [ht]
  · rw [ht]
    exact (appendSeguro_prefixo _ _ _).trans (appendSeguro_prefixo _ _ _)
  · rw [ht]
    exact (appendSeguro_prefixo _ _ _).trans (appendSeguro_prefixo _ _ _)

/-- The trail only grows at its end. -/
theorem avancar_prefixo (k : Nat) (s s' : Estado) (h : avancar k s = some s') :
    s.trilha <+: s'.trilha := by
  induction k generalizing s with
  | zero =>
    simp only [avancar, Option.some.injEq] at h
    rw [h]
  | succ k ih =>
    cases hi : iteracao s with
    | fim f => simp [avancar, hi] at h
    | continua t =>
      rw [avancar_succ k s t hi] at h
      exact (iteracao_continua_prefixo s t hi).trans (ih t h)

/-- A text whose first `n` bytes are fewer than `n` has at most `n` bytes. -/
theorem take_curta (texto curto : List Nat) (n : Nat) (h : curto = texto.take n)
    (hl : curto.length < n) : texto.length ≤ n := by
  rw [h, List.length_take] at hl
  omega

/-- The trail at the end starts with the trail of every pass. -/
theorem laco_prefixo (n : Nat) (s g : Estado) (h : laco n s = some g) :
    s.trilha <+: g.trilha := by
  induction n generalizing s with
  | zero => simp [laco] at h
  | succ n ih =>
    cases hi : iteracao s with
    | fim f =>
      rw [laco_succ_fim n s f hi] at h
      injection h with h
      subst h
      rw [(iteracao_fim_mantem s f hi).2]
    | continua t =>
      rw [laco_succ_continua n s t hi] at h
      exact (iteracao_continua_prefixo s t hi).trans (ih t h)

/-! ## The claims -/

/-- C1. At a prompt (the current room is not a dead end), a command that is none
of `s`, `e`, `d` makes the pass end with the same current room and the same
trail, and the loop goes on; the pass only reads the command and prints the
menu and the invalid-option message. A line of white space only gives the empty
command `0`, which is such a command. -/
theorem comando_invalido_mantem_estado (raiz : Sala) (s : Estado) (_ : Alcancavel raiz s)
    (hnf : (!s.atual.esq.presente && !s.atual.dir.presente) = false) :
    ((lerOpcao s.entrada).1 ≠ 115 → (lerOpcao s.entrada).1 ≠ 101 →
      (lerOpcao s.entrada).1 ≠ 100 →
      iteracao s = .continua
        { atual := s.atual
          trilha := s.trilha
          entrada := (lerOpcao s.entrada).2
          saida := s.saida ++ mostrarMenu s.atual ++ msgInvalida }) ∧
    (∀ linha resto : List Nat, (∀ c ∈ linha, isspace c = true) →
      s.entrada = linha ++ 10 :: resto →
      (lerOpcao s.entrada).1 = 0 ∧
      iteracao s = .continua
        { atual := s.atual
          trilha := s.trilha
          entrada := (lerOpcao s.entrada).2
          saida := s.saida ++ mostrarMenu s.atual ++ msgInvalida }) := by
  refine ⟨fun h115 h101 h100 => iteracao_invalida s hnf h115 h101 h100, ?_⟩
  intro linha resto hl he
  have hop : (lerOpcao s.entrada).1 = 0 := by
    rw [he]
    cases linha with
    | nil => simp [lerOpcao, fgets, lerBytes, primeiraOpcao, isspace]
    | cons c cs =>
      simp only [lerOpcao, fgets, List.cons_append]
      exact primeiraOpcao_espacos 127 (c :: cs) resto hl
  exact ⟨hop, iteracao_invalida s hnf (by omega) (by omega) (by omega)⟩

/-- C1 at the hall of the mansion, with the line `x` and with a line of two spaces. -/
theorem comando_invalido_mantem_estado_witness :
    iteracao (entrar mansao (txt "x\n") []) = .continua
      { atual := mansao
        trilha := (entrar mansao (txt "x\n") []).trilha
        entrada := []
        saida := (entrar mansao (txt "x\n") []).saida ++ mostrarMenu mansao ++ msgInvalida } ∧
    (lerOpcao (entrar mansao (txt "  \n") []).entrada).1 = 0 :=
  ⟨(comando_invalido_mantem_estado mansao (entrar mansao (txt "x\n") [])
      (Alcancavel.primeira _ _ (by decide)) (by decide)).1
      (by decide) (by decide) (by decide),
   ((comando_invalido_mantem_estado mansao (entrar mansao (txt "  \n") [])
      (Alcancavel.primeira _ _ (by decide)) (by decide)).2
      [32, 32] [] (by decide) (by decide)).1⟩

/-- C3. At a room that has a way out but none to the left, the command `e` keeps
the current room and the trail, prints (after the menu) the message that there
is no way to the left from the current room, named in it, and the loop goes on;
the same holds for `d` at a room with no way to the right. -/
theorem direcao_ausente_mantem_estado (raiz : Sala) (s : Estado) (_ : Alcancavel raiz s) :
    (s.atual.esq.presente = false → s.atual.dir.presente = true →
      (lerOpcao s.entrada).1 = 101 →
      iteracao s = .continua
        { atual := s.atual
          trilha := s.trilha
          entrada := (lerOpcao s.entrada).2
          saida := s.saida ++ mostrarMenu s.atual ++
            (txt "\nCaminho a ESQUERDA inexistente a partir de \"" ++ s.atual.nome ++
              txt "\".\n") }) ∧
    (s.atual.esq.presente = true → s.atual.dir.presente = false →
      (lerOpcao s.entrada).1 = 100 →
      iteracao s = .continua
        { atual := s.atual
          trilha := s.trilha
          entrada := (lerOpcao s.entrada).2
          saida := s.saida ++ mostrarMenu s.atual ++
            (txt "\nCaminho a DIREITA inexistente a partir de \"" ++ s.atual.nome ++
              txt "\".\n") }) :=
  ⟨fun he hd hop => iteracao_esquerda_ausente s he hd hop,
   fun he hd hop => iteracao_direita_ausente s he hd hop⟩

/-- C3 at a room with a way to the right only (line `e`) and at a corridor of two
rooms (line `d`). -/
theorem direcao_ausente_mantem_estado_witness :
    iteracao (entrar salaSoDireita (txt "e\n") []) = .continua
      { atual := salaSoDireita
        trilha := txt "Adega"
        entrada := []
        saida := (entrar salaSoDireita (txt "e\n") []).saida ++ mostrarMenu salaSoDireita ++
          txt "\nCaminho a ESQUERDA inexistente a partir de \"Adega\".\n" } ∧
    iteracao (entrar (corredor 2) (txt "d\n") []) = .continua
      { atual := corredor 2
        trilha := nomeLongo
        entrada := []
        saida := (entrar (corredor 2) (txt "d\n") []).saida ++ mostrarMenu (corredor 2) ++
          (txt "\nCaminho a DIREITA inexistente a partir de \"" ++ nomeLongo ++
            txt "\".\n") } :=
  ⟨(direcao_ausente_mantem_estado salaSoDireita (entrar salaSoDireita (txt "e\n") [])
      (Alcancavel.primeira _ _ (by decide))).1 (by decide) (by decide) (by decide),
   (direcao_ausente_mantem_estado (corredor 2) (entrar (corredor 2) (txt "d\n") [])
      (Alcancavel.primeira _ _ (by decide))).2 (by decide) (by decide) (by decide)⟩

/-- C4. When the current room has neither child the pass leaves the loop at once:
the input is left as it was, and the only thing printed is the dead-end message,
`Nao ha caminhos a esquerda nem a direita.` and `Fim da exploracao: voce chegou
a um comodo sem saidas.` (no menu). A root with neither child ends the whole
session with the input untouched: only the entry message, the dead-end message
and the closing section are printed. -/
theorem folha_encerra_sem_ler (s : Estado) (raiz : Sala) (entrada saida : List Nat) :
    (s.atual.esq.presente = false → s.atual.dir.presente = false →
      iteracao s = .fim
        { atual := s.atual
          trilha := s.trilha
          entrada := s.entrada
          saida := s.saida ++
            (txt "\nNao ha caminhos a esquerda nem a direita.\n" ++
             txt "Fim da exploracao: voce chegou a um comodo sem saidas.\n") }) ∧
    (raiz.presente = true → raiz.esq.presente = false → raiz.dir.presente = false →
      explorarSalas raiz entrada saida = some
        { atual := raiz
          trilha := appendSeguro [] CAP raiz.nome
          entrada := entrada
          saida := saida ++
            (txt "\n>>> Voce entrou em: " ++ raiz.nome ++ txt "\n") ++
            (txt "\nNao ha caminhos a esquerda nem a direita.\n" ++
             txt "Fim da exploracao: voce chegou a um comodo sem saidas.\n") ++
            (txt "\n--- Salas visitadas ---\n" ++
              (if appendSeguro [] CAP raiz.nome = [] then txt "(nenhuma)"
               else appendSeguro [] CAP raiz.nome) ++ txt "\n") }) := by
  refine ⟨fun he hd => iteracao_folha s he hd, ?_⟩
  intro hp he hd
  have hi := iteracao_folha (entrar raiz entrada saida) he hd
  have hv : msgVisitadas (appendSeguro [] CAP raiz.nome) =
      txt "\n--- Salas visitadas ---\n" ++
        (if appendSeguro [] CAP raiz.nome = [] then txt "(nenhuma)"
         else appendSeguro [] CAP raiz.nome) ++ txt "\n" := by
    cases appendSeguro [] CAP raiz.nome with
    | nil => rfl
    | cons c cs => rfl
  simp only [explorarSalas, hp, laco, hi]
  rw [← hv]
  rfl

/-- C4 at a room with no way out, with three lines waiting in the input. -/
theorem folha_encerra_sem_ler_witness :
    iteracao (entrar salaSemSaida (txt "e\nd\ns\n") []) = .fim
      { atual := salaSemSaida
        trilha := txt "Cofre"
        entrada := txt "e\nd\ns\n"
        saida := txt "\n>>> Voce entrou em: Cofre\n" ++
          txt "\nNao ha caminhos a esquerda nem a direita.\n" ++
          txt "Fim da exploracao: voce chegou a um comodo sem saidas.\n" } ∧
    explorarSalas salaSemSaida (txt "e\nd\ns\n") [] = some
      { atual := salaSemSaida
        trilha := txt "Cofre"
        entrada := txt "e\nd\ns\n"
        saida := txt "\n>>> Voce entrou em: Cofre\n" ++
          txt "\nNao ha caminhos a esquerda nem a direita.\n" ++
          txt "Fim da exploracao: voce chegou a um comodo sem saidas.\n" ++
          txt "\n--- Salas visitadas ---\nCofre\n" } :=
  ⟨((folha_encerra_sem_ler (entrar salaSemSaida (txt "e\nd\ns\n") []) salaSemSaida
      (txt "e\nd\ns\n") []).1 (by decide) (by decide)).trans (by decide),
   ((folha_encerra_sem_ler (entrar salaSemSaida (txt "e\nd\ns\n") []) salaSemSaida
      (txt "e\nd\ns\n") []).2 (by decide) (by decide) (by decide)).trans (by decide)⟩

/-- C2, as stated, fails. In the corridor of 17 rooms whose names have 63 bytes,
after 14 moves to the left the trail has 1001 bytes; the state is reachable, the
room has a left child and the command read is `e`, yet the pass does not end
with the old trail followed by the separator and the name of the child (that
would be 1068 bytes). -/
theorem mover_pode_truncar_a_trilha :
    Alcancavel (corredor 17) quaseCheio ∧
    quaseCheio.atual.esq.presente = true ∧
    (lerOpcao quaseCheio.entrada).1 = 101 ∧
    quaseCheio.trilha.length = 1001 ∧
    ¬ ∃ s', iteracao quaseCheio = .continua s' ∧
      s'.trilha = quaseCheio.trilha ++ SEP ++ quaseCheio.atual.esq.nome := by
  obtain ⟨hal, hat, hen, htr⟩ := corredor_passos 14 (by omega)
  have he : quaseCheio.atual.esq.presente = true := by
    show (passoEsq^[14] _).atual.esq.presente = true
    rw [hat]
    rfl
  have hnome : quaseCheio.atual.esq.nome = nomeLongo := by
    show (passoEsq^[14] _).atual.esq.nome = nomeLongo
    rw [hat]
    rfl
  have hop : (lerOpcao quaseCheio.entrada).1 = 101 := by
    show (lerOpcao (passoEsq^[14] _).entrada).1 = 101
    rw [hen]
    rfl
  refine ⟨hal, he, hop, htr, ?_⟩
  rintro ⟨s', hi, ht⟩
  have hl := alcancavel_trilha_length _ _ (Alcancavel.passo hal hi)
  have hlen : quaseCheio.trilha.length = 1001 := htr
  have h4 : SEP.length = 4 := rfl
  have h63 : nomeLongo.length = 63 := rfl
  rw [ht, hnome] at hl
  simp only [List.length_append, hlen, h4, h63] at hl
  omega

/-- C2, amended. From a reachable state whose current room has a left child, the
command `e` always moves the current room to that child, and the new trail is
the first 1023 bytes of the old trail followed by one separator and the name of
the child; when these fit the buffer (old length + 4 + length of the name at
most 1023) the new trail is exactly the old trail, one separator and the whole
name. The same holds for `d` and the right child. -/
theorem mover_acrescenta_separador_e_nome (raiz : Sala) (s : Estado)
    (hs : Alcancavel raiz s) :
    (s.atual.esq.presente = true → (lerOpcao s.entrada).1 = 101 →
      ∃ s', iteracao s = .continua s' ∧ s'.atual = s.atual.esq ∧
        s'.trilha = (s.trilha ++ SEP ++ s.atual.esq.nome).take 1023 ∧
        (s.trilha.length + 4 + s.atual.esq.nome.length ≤ 1023 →
          s'.trilha = s.trilha ++ SEP ++ s.atual.esq.nome)) ∧
    (s.atual.dir.presente = true → (lerOpcao s.entrada).1 = 100 →
      ∃ s', iteracao s = .continua s' ∧ s'.atual = s.atual.dir ∧
        s'.trilha = (s.trilha ++ SEP ++ s.atual.dir.nome).take 1023 ∧
        (s.trilha.length + 4 + s.atual.dir.nome.length ≤ 1023 →
          s'.trilha = s.trilha ++ SEP ++ s.atual.dir.nome)) := by
  have hl := alcancavel_trilha_length raiz s hs
  have h4 : SEP.length = 4 := rfl
  constructor
  · intro he hop
    refine ⟨_, iteracao_esquerda s he hop, rfl, appendSeguro_mover _ _ hl, ?_⟩
    intro hc
    show appendSeguro (appendSeguro s.trilha CAP SEP) CAP s.atual.esq.nome = _
    rw [appendSeguro_mover _ _ hl]
    exact List.take_of_length_le (by simp [h4]; omega)
  · intro hd hop
    refine ⟨_, iteracao_direita s hd hop, rfl, appendSeguro_mover _ _ hl, ?_⟩
    intro hc
    show appendSeguro (appendSeguro s.trilha CAP SEP) CAP s.atual.dir.nome = _
    rw [appendSeguro_mover _ _ hl]
    exact List.take_of_length_le (by simp [h4]; omega)

/-- C2 amended, at the hall of the mansion with the line `e`. -/
theorem mover_acrescenta_separador_e_nome_witness :
    ∃ s', iteracao (entrar mansao (txt "e\n") []) = .continua s' ∧ s'.atual = mansao.esq ∧
      s'.trilha = txt "Hall de entrada -> Sala de Estar" :=
  let ⟨s', hi, ha, _, hc⟩ :=
    (mover_acrescenta_separador_e_nome mansao (entrar mansao (txt "e\n") [])
      (Alcancavel.primeira _ _ (by decide))).1 (by decide) (by decide)
  ⟨s', hi, ha, hc (by decide)⟩

/-- C5. At a prompt, the loop run on an input that has ended and the loop run on
an input whose next line is `s` both stop in this pass, with the same current
room, the same trail and the same text printed (the menu and the message that
the player ended the exploration), also after the closing section; the second
run leaves the lines after the `s` unread. -/
theorem fim_da_entrada_equivale_a_sair (s : Estado) (resto : List Nat) (n : Nat)
    (hnf : (!s.atual.esq.presente && !s.atual.dir.presente) = false) :
    laco (n + 1) { s with entrada := [] } = some
      { atual := s.atual
        trilha := s.trilha
        entrada := []
        saida := s.saida ++ mostrarMenu s.atual ++ msgEncerrada } ∧
    laco (n + 1) { s with entrada := 115 :: 10 :: resto } = some
      { atual := s.atual
        trilha := s.trilha
        entrada := resto
        saida := s.saida ++ mostrarMenu s.atual ++ msgEncerrada } ∧
    ((laco (n + 1) { s with entrada := [] }).map fun f => ((concluir f).atual,
        (concluir f).trilha, (concluir f).saida)) =
      ((laco (n + 1) { s with entrada := 115 :: 10 :: resto }).map fun f =>
        ((concluir f).atual, (concluir f).trilha, (concluir f).saida)) := by
  have h1 := iteracao_sair { s with entrada := [] } hnf rfl
  have h2 := iteracao_sair { s with entrada := 115 :: 10 :: resto } hnf rfl
  have e1 : laco (n + 1) { s with entrada := [] } = some
      { atual := s.atual, trilha := s.trilha, entrada := [],
        saida := s.saida ++ mostrarMenu s.atual ++ msgEncerrada } := by
    simp only [laco, h1]
    rfl
  have e2 : laco (n + 1) { s with entrada := 115 :: 10 :: resto } = some
      { atual := s.atual, trilha := s.trilha, entrada := resto,
        saida := s.saida ++ mostrarMenu s.atual ++ msgEncerrada } := by
    simp only [laco, h2]
    rfl
  refine ⟨e1, e2, ?_⟩
  rw [e1, e2]
  rfl

/-- C5 at the hall of the mansion. -/
theorem fim_da_entrada_equivale_a_sair_witness :
    ((laco 1 { entrar mansao [] [] with entrada := [] }).map fun f => ((concluir f).atual,
        (concluir f).trilha, (concluir f).saida)) =
      ((laco 1 { entrar mansao [] [] with entrada := 115 :: 10 :: txt "e\n" }).map fun f =>
        ((concluir f).atual, (concluir f).trilha, (concluir f).saida)) :=
  (fim_da_entrada_equivale_a_sair (entrar mansao [] []) (txt "e\n") 0 (by decide)).2.2

/-- C6, as stated, fails for long lines. On the line of 127 spaces followed by
`e`, one call reads the 127 spaces only, returns the empty command and leaves
`e` and the newline in the input, while the first byte of the line that is not
white space is `e`. -/
theorem lerOpcao_linha_longa :
    lerOpcao (List.replicate 127 32 ++ 101 :: 10 :: []) = (0, [101, 10]) ∧
    comandoEspecificado (List.replicate 127 32 ++ [101]) = 101 := by
  decide

/-- C6, amended. For every line of at most 126 bytes before its newline, one call
of `lerOpcao` reads exactly that line with its newline and returns the lowercase
form of its first byte that is not white space, or the empty command `0` when
the line holds white space only. So `E`, `D`, `S`, `esq` and `dir` are read as
`e`, `d`, `s`, `e` and `d`. -/
theorem lerOpcao_le_uma_linha (linha resto : List Nat) (hnl : ∀ c ∈ linha, c ≠ 10)
    (hlen : linha.length ≤ 126) :
    lerOpcao (linha ++ 10 :: resto) = (comandoEspecificado linha, resto) ∧
    ((∀ c ∈ linha, isspace c = true) → comandoEspecificado linha = 0) ∧
    lerOpcao (txt "E\n" ++ resto) = (101, resto) ∧
    lerOpcao (txt "D\n" ++ resto) = (100, resto) ∧
    lerOpcao (txt "S\n" ++ resto) = (115, resto) ∧
    lerOpcao (txt "esq\n" ++ resto) = (101, resto) ∧
    lerOpcao (txt "dir\n" ++ resto) = (100, resto) := by
  have hg : ∀ l : List Nat, (∀ c ∈ l, c ≠ 10) → l.length ≤ 126 →
      lerOpcao (l ++ 10 :: resto) = (comandoEspecificado l, resto) := by
    intro l hl hn
    have hb := lerBytes_linha 127 l resto hl (by omega)
    cases l with
    | nil => simp [lerOpcao, fgets, lerBytes, primeiraOpcao, isspace, comandoEspecificado]
    | cons c cs =>
      simp only [List.cons_append] at hb
      simp only [lerOpcao, fgets, List.cons_append, hb]
      rw [← List.cons_append, primeiraOpcao_linha]
  refine ⟨hg linha hnl hlen, ?_, hg (txt "E") (by decide) (by decide),
    hg (txt "D") (by decide) (by decide), hg (txt "S") (by decide) (by decide),
    hg (txt "esq") (by decide) (by decide), hg (txt "dir") (by decide) (by decide)⟩
  intro hsp
  have : linha.find? (fun c => !isspace c) = none := by
    rw [List.find?_eq_none]
    intro c hc
    simp [hsp c hc]
  simp [comandoEspecificado, this]

/-- C6 amended, on the line `  Dir` followed by another line. -/
theorem lerOpcao_le_uma_linha_witness :
    lerOpcao (txt "  Dir" ++ 10 :: txt "s\n") = (100, txt "s\n") :=
  (lerOpcao_le_uma_linha (txt "  Dir") (txt "s\n") (by decide) (by decide)).1

/-- C7, as stated, fails. With `ab` in a buffer of capacity 5, appending `cde`
would overflow (2 + 3 > 4), and the call leaves `abcd` in the buffer: a part of
the text is added. -/
theorem appendSeguro_acrescenta_parte :
    (txt "ab").length + (txt "cde").length > 5 - 1 ∧
    appendSeguro (txt "ab") 5 (txt "cde") = txt "abcd" ∧
    appendSeguro (txt "ab") 5 (txt "cde") ≠ txt "ab" := by
  decide

/-- C7, amended. For a capacity of at least 1, when appending the source would
overflow the buffer (`len(dest) + len(src) > cap - 1`): if the buffer is already
full (`len(dest) ≥ cap - 1`) its content stays as it was; otherwise the old
content stays and exactly the first `cap - 1 - len(dest)` bytes of the source
are added, which is a part of the source that is neither empty nor the whole of
it, and the buffer ends with `cap - 1` bytes. -/
theorem appendSeguro_estouro (dest src : List Nat) (cap : Nat) (h1 : 1 ≤ cap)
    (h2 : cap < SIZE_MOD) (h : dest.length + src.length > cap - 1) :
    (cap - 1 ≤ dest.length → appendSeguro dest cap src = dest) ∧
    (dest.length < cap - 1 →
      appendSeguro dest cap src = dest ++ src.take (cap - 1 - dest.length) ∧
      0 < cap - 1 - dest.length ∧ cap - 1 - dest.length < src.length ∧
      (appendSeguro dest cap src).length = cap - 1) := by
  have hm := capMenos1_eq cap h1 (Nat.le_of_lt h2)
  constructor
  · intro hf
    unfold appendSeguro
    simp only [hm, ge_iff_le, hf, if_true]
  · intro hnf
    have hlt : cap - 1 - dest.length < src.length := by omega
    have he : appendSeguro dest cap src = dest ++ src.take (cap - 1 - dest.length) := by
      unfold appendSeguro
      simp only [hm, ge_iff_le, Nat.not_le.mpr hnf, if_false, strncat, hlt, if_true]
    refine ⟨he, by omega, hlt, ?_⟩
    rw [he, List.length_append, List.length_take]
    omega

/-- C7 amended, on the buffer `ab` of capacity 5 and the source `cde`. -/
theorem appendSeguro_estouro_witness :
    (txt "ab").length + (txt "cde").length > 5 - 1 ∧
    appendSeguro (txt "ab") 5 (txt "cde") = txt "ab" ++ (txt "cde").take 2 ∧
    (appendSeguro (txt "ab") 5 (txt "cde")).length = 4 :=
  ⟨by decide,
   ((appendSeguro_estouro (txt "ab") (txt "cde") 5 (by decide) (by decide) (by decide)).2
      (by decide)).1,
   ((appendSeguro_estouro (txt "ab") (txt "cde") 5 (by decide) (by decide) (by decide)).2
      (by decide)).2.2.2⟩

/-- C8. In the mansion, whatever the input, the trail at the top of every pass
and at the end of the session has at most 46 bytes (indeed at most the 43 bytes
of `Hall de entrada -> Sala de Estar -> Cozinha`). The first append and the two
appends of every possible move take neither the already-full return nor the
shortened count of `appendSeguro`, so each of them adds its whole text. -/
theorem trilha_da_mansao_cabe (s : Estado) (hs : Alcancavel mansao s)
    (entrada saida : List Nat) :
    s.trilha.length ≤ 46 ∧
    s.trilha.length ≤ (txt "Hall de entrada -> Sala de Estar -> Cozinha").length ∧
    (appendCompleto [] CAP mansao.nome = true ∧
      appendSeguro [] CAP mansao.nome = mansao.nome) ∧
    (s.atual.esq.presente = true →
      appendCompleto s.trilha CAP SEP = true ∧
      appendCompleto (appendSeguro s.trilha CAP SEP) CAP s.atual.esq.nome = true ∧
      appendSeguro (appendSeguro s.trilha CAP SEP) CAP s.atual.esq.nome
        = s.trilha ++ SEP ++ s.atual.esq.nome) ∧
    (s.atual.dir.presente = true →
      appendCompleto s.trilha CAP SEP = true ∧
      appendCompleto (appendSeguro s.trilha CAP SEP) CAP s.atual.dir.nome = true ∧
      appendSeguro (appendSeguro s.trilha CAP SEP) CAP s.atual.dir.nome
        = s.trilha ++ SEP ++ s.atual.dir.nome) ∧
    (∃ f, explorarSalas mansao entrada saida = some f ∧ f.trilha.length ≤ 46) := by
  have hlen : ∀ p ∈ trilhasDaMansao, p.2.length ≤ 46 ∧
      p.2.length ≤ (txt "Hall de entrada -> Sala de Estar -> Cozinha").length := by decide
  have hesq : ∀ p ∈ trilhasDaMansao, p.1.esq.presente = true →
      appendCompleto p.2 CAP SEP = true ∧
      appendCompleto (appendSeguro p.2 CAP SEP) CAP p.1.esq.nome = true ∧
      appendSeguro (appendSeguro p.2 CAP SEP) CAP p.1.esq.nome
        = p.2 ++ SEP ++ p.1.esq.nome := by decide
  have hdir : ∀ p ∈ trilhasDaMansao, p.1.dir.presente = true →
      appendCompleto p.2 CAP SEP = true ∧
      appendCompleto (appendSeguro p.2 CAP SEP) CAP p.1.dir.nome = true ∧
      appendSeguro (appendSeguro p.2 CAP SEP) CAP p.1.dir.nome
        = p.2 ++ SEP ++ p.1.dir.nome := by decide
  have hm := mansao_alcancavel s hs
  refine ⟨(hlen _ hm).1, (hlen _ hm).2, by decide, hesq _ hm, hdir _ hm, ?_⟩
  obtain ⟨f, s', hf, hs', _, ht⟩ := explorarSalas_termina mansao entrada saida (by decide)
  exact ⟨f, hf, by rw [ht]; exact (hlen _ (mansao_alcancavel s' hs')).1⟩

/-- C8 at the first pass of a session with the input `e`, `e`. -/
theorem trilha_da_mansao_cabe_witness :
    (entrar mansao (txt "e\ne\n") []).trilha.length ≤ 46 ∧
    ∃ f, explorarSalas mansao (txt "e\ne\n") [] = some f ∧ f.trilha.length ≤ 46 :=
  ⟨(trilha_da_mansao_cabe (entrar mansao (txt "e\ne\n") [])
      (Alcancavel.primeira _ _ (by decide)) (txt "e\ne\n") []).1,
   (trilha_da_mansao_cabe (entrar mansao (txt "e\ne\n") [])
      (Alcancavel.primeira _ _ (by decide)) (txt "e\ne\n") []).2.2.2.2.2⟩

/-- C9. For a tree whose root is present (names being those of the field
`char nome[64]`), the trail before the first prompt is exactly the name of the
root, the trail at the top of every pass starts with the name of the root, and
the session ends with a trail that starts with the name of the root. -/
theorem trilha_comeca_pela_raiz (raiz : Sala) (hp : raiz.presente = true)
    (hbf : raiz.bemFormada = true) (s : Estado) (hs : Alcancavel raiz s)
    (entrada saida : List Nat) :
    (entrar raiz entrada saida).trilha = raiz.nome ∧
    raiz.nome <+: s.trilha ∧
    ∃ f, explorarSalas raiz entrada saida = some f ∧ raiz.nome <+: f.trilha := by
  have hn := bemFormada_nome raiz hbf
  have h0 : appendSeguro [] CAP raiz.nome = raiz.nome := by
    have := appendSeguro_CAP_cabe [] raiz.nome (by simp; omega)
    simpa using this
  refine ⟨h0, ?_, ?_⟩
  · have := alcancavel_prefixo raiz s hs
    rwa [h0] at this
  · obtain ⟨f, s', hf, hs', _, ht⟩ := explorarSalas_termina raiz entrada saida hp
    refine ⟨f, hf, ?_⟩
    have := alcancavel_prefixo raiz s' hs'
    rwa [h0, ← ht] at this

/-- C9 at a room with a way to the right only, after the move to the right. -/
theorem trilha_comeca_pela_raiz_witness :
    (entrar salaSoDireita (txt "d\n") []).trilha = txt "Adega" ∧
    txt "Adega" <+: txt "Adega -> Sotao" ∧
    ∃ f, explorarSalas salaSoDireita (txt "d\n") [] = some f ∧ txt "Adega" <+: f.trilha :=
  trilha_comeca_pela_raiz salaSoDireita (by decide) (by decide)
    { atual := salaSoDireita.dir, trilha := txt "Adega -> Sotao", entrada := [],
      saida := (entrar salaSoDireita (txt "d\n") []).saida ++ mostrarMenu salaSoDireita ++
        msgEntrou (txt "Sotao") }
    (Alcancavel.passo (Alcancavel.primeira (txt "d\n") [] (by decide)) rfl)
    (txt "d\n") []

set_option maxRecDepth 8000 in
/-- C10. On the mansion with the input lines `e`, `e`, `s`: the first pass moves
to Sala de Estar, the second to Cozinha, the third leaves the loop by the dead
end without reading anything, so the line `s` is still in the input at the end,
and the final trail is `Hall de entrada -> Sala de Estar -> Cozinha`. -/
theorem sessao_e_e_s :
    (main (txt "e\ne\ns\n")).map (fun f => (f.atual.nome, f.trilha, f.entrada)) =
      some (txt "Cozinha", txt "Hall de entrada -> Sala de Estar -> Cozinha", txt "s\n") ∧
    (avancar 1 (entrar mansao (txt "e\ne\ns\n") cabecalho)).map
        (fun s => (s.atual.nome, s.trilha, s.entrada)) =
      some (txt "Sala de Estar", txt "Hall de entrada -> Sala de Estar", txt "e\ns\n") ∧
    (avancar 2 (entrar mansao (txt "e\ne\ns\n") cabecalho)).map
        (fun s => (s.atual.nome, s.trilha, s.entrada)) =
      some (txt "Cozinha", txt "Hall de entrada -> Sala de Estar -> Cozinha", txt "s\n") ∧
    (avancar 2 (entrar mansao (txt "e\ne\ns\n") cabecalho)).map iteracao =
      (avancar 2 (entrar mansao (txt "e\ne\ns\n") cabecalho)).map
        (fun s => Passo.fim { s with saida := s.saida ++ msgSemSaida }) ∧
    (main (txt "e\ne\ns\n")).map (fun f => f.saida) =
      (avancar 2 (entrar mansao (txt "e\ne\ns\n") cabecalho)).map
        (fun s => s.saida ++ msgSemSaida ++
          txt "\n--- Salas visitadas ---\nHall de entrada -> Sala de Estar -> Cozinha\n") := by
  decide

set_option maxRecDepth 8000 in
/-- C11, as stated, fails. On the mansion the input lines `d`, `d` end with the
trail `Hall de entrada -> Biblioteca -> Porao`, not with
`Hall de entrada -> Biblioteca -> Escritorio`: Escritorio is the room to the
left of Biblioteca. -/
theorem sessao_d_d_nao_chega_ao_escritorio :
    (main (txt "d\nd\n")).map (fun f => f.trilha) =
      some (txt "Hall de entrada -> Biblioteca -> Porao") ∧
    (main (txt "d\nd\n")).map (fun f => f.trilha) ≠
      some (txt "Hall de entrada -> Biblioteca -> Escritorio") := by
  decide

/-- C11, amended. On the mansion the input lines `d`, `d`, followed by any
further bytes, give the final trail `Hall de entrada -> Biblioteca -> Porao`:
the first pass moves to Biblioteca, the second to Porao, the third leaves the
loop by the dead end, and what follows the two lines is left unread. -/
theorem sessao_d_d (resto : List Nat) :
    main (txt "d\nd\n" ++ resto) = some
      { atual := mansao.dir.dir
        trilha := txt "Hall de entrada -> Biblioteca -> Porao"
        entrada := resto
        saida := cabecalho ++ msgEntrou (txt "Hall de entrada") ++ mostrarMenu mansao ++
          msgEntrou (txt "Biblioteca") ++ mostrarMenu mansao.dir ++
          msgEntrou (txt "Porao") ++ msgSemSaida ++
          txt "\n--- Salas visitadas ---\nHall de entrada -> Biblioteca -> Porao\n" } ∧
    mansao.dir.nome = txt "Biblioteca" ∧ mansao.dir.dir.nome = txt "Porao" ∧
    (avancar 1 (entrar mansao (txt "d\nd\n" ++ resto) cabecalho)).map
        (fun s => (s.atual, s.entrada)) = some (mansao.dir, txt "d\n" ++ resto) ∧
    (avancar 2 (entrar mansao (txt "d\nd\n" ++ resto) cabecalho)).map
        (fun s => (s.atual, s.entrada)) = some (mansao.dir.dir, resto) := by
  have h1 := iteracao_direita (entrar mansao (100 :: 10 :: 100 :: 10 :: resto) cabecalho)
    rfl rfl
  have h2 := iteracao_direita
    { atual := mansao.dir
      trilha := txt "Hall de entrada -> Biblioteca"
      entrada := 100 :: 10 :: resto
      saida := cabecalho ++ msgEntrou (txt "Hall de entrada") ++ mostrarMenu mansao ++
        msgEntrou (txt "Biblioteca") } rfl rfl
  have h3 := iteracao_folha
    { atual := mansao.dir.dir
      trilha := txt "Hall de entrada -> Biblioteca -> Porao"
      entrada := resto
      saida := cabecalho ++ msgEntrou (txt "Hall de entrada") ++ mostrarMenu mansao ++
        msgEntrou (txt "Biblioteca") ++ mostrarMenu mansao.dir ++
        msgEntrou (txt "Porao") } rfl rfl
  refine ⟨?_, rfl, rfl, ?_, ?_⟩
  · show explorarSalas mansao (100 :: 10 :: 100 :: 10 :: resto) cabecalho = _
    have hp : mansao.presente = true := rfl
    simp only [explorarSalas, hp, List.length_cons]
    rw [laco_succ_continua _ _ _ h1]
    rw [show resto.length + 1 + 1 + 1 + 1 = (resto.length + 1 + 1) + 1 + 1 from rfl]
    erw [laco_succ_continua _ _ _ h2]
    erw [laco_succ_fim _ _ _ h3]
    rfl
  · show (avancar 1 (entrar mansao (100 :: 10 :: 100 :: 10 :: resto) cabecalho)).map _ = _
    rw [avancar_succ _ _ _ h1]
    rfl
  · show (avancar 2 (entrar mansao (100 :: 10 :: 100 :: 10 :: resto) cabecalho)).map _ = _
    rw [avancar_succ _ _ _ h1]
    erw [avancar_succ _ _ _ h2]
    rfl

set_option maxRecDepth 8000 in
/-- C12. On the mansion the single input line `s` makes no move: the first pass
reads it and leaves the loop by the quit branch (the message that the player
ended the exploration is printed), the current room is still the hall and the
final trail is exactly `Hall de entrada`. -/
theorem sessao_s :
    main (txt "s\n") = some
      { atual := mansao
        trilha := txt "Hall de entrada"
        entrada := []
        saida := cabecalho ++ msgEntrou (txt "Hall de entrada") ++ mostrarMenu mansao ++
          msgEncerrada ++ txt "\n--- Salas visitadas ---\nHall de entrada\n" } ∧
    mansao.nome = txt "Hall de entrada" ∧
    avancar 1 (entrar mansao (txt "s\n") cabecalho) = none ∧
    movimentos 3 (entrar mansao (txt "s\n") cabecalho) = 0 := by
  decide

/-- C13. When the allocation succeeds, `criarSala` adds one room to the heap,
leaves the rooms that were there as they were and returns the address of the new
room, which is not null; both links of the new room are null; its field `nome`
has 64 bytes, the last of them a terminator, and holds as a C string the name
given if that has at most 63 bytes, and otherwise exactly its first 63 bytes; so
the stored name never has more than 63 bytes. -/
theorem criarSala_guarda_nome (m : Memoria) (nome : List Nat) (hnome : ∀ c ∈ nome, c ≠ 0) :
    (criarSala m nome).1 = m ++ [{ nome := cstr (campoNome nome), esq := 0, dir := 0 }] ∧
    (criarSala m nome).2 = m.length + 1 ∧
    arvoreDe (m.length + 1) (criarSala m nome).1 (criarSala m nome).2
      = .no (cstr (campoNome nome)) .nulo .nulo ∧
    (campoNome nome).length = 64 ∧
    (campoNome nome)[63]? = some 0 ∧
    (nome.length ≤ 63 → cstr (campoNome nome) = nome) ∧
    (63 < nome.length →
      cstr (campoNome nome) = nome.take 63 ∧ (cstr (campoNome nome)).length = 63) ∧
    (cstr (campoNome nome)).length ≤ 63 := by
  have hc := cstr_campoNome nome hnome
  have hl := campoNome_length nome
  refine ⟨by simp [criarSala, hc], rfl, ?_, hl, ?_, ?_, ?_, ?_⟩
  · simp [criarSala, arvoreDe, hc, arvoreDe_nulo]
  · have h63 : (strncpy nome 63).length = 63 := by
      simp only [strncpy, List.length_append, List.length_take, List.length_replicate]
      omega
    simp only [campoNome]
    rw [List.getElem?_append_right (by omega), h63]
    rfl
  · intro h
    rw [hc, List.take_of_length_le h]
  · intro h
    refine ⟨hc, ?_⟩
    rw [hc, List.length_take]
    omega
  · rw [hc, List.length_take]
    omega

/-- C13 on an empty heap, with the name of the hall and with a name of 70 bytes. -/
theorem criarSala_guarda_nome_witness :
    (criarSala [] (txt "Hall de entrada")).1 =
      [{ nome := txt "Hall de entrada", esq := 0, dir := 0 }] ∧
    cstr (campoNome (List.replicate 70 97)) = List.replicate 63 97 :=
  ⟨((criarSala_guarda_nome [] (txt "Hall de entrada") (by decide)).1).trans (by decide),
   (((criarSala_guarda_nome [] (List.replicate 70 97) (by decide)).2.2.2.2.2.2.1
      (by decide)).1).trans (by decide)⟩

set_option maxRecDepth 8000 in
/-- C14. The heap built by `main` holds exactly 7 rooms, and the tree seen from
`hall` has 7 rooms on 3 levels: Hall de entrada with Sala de Estar to the left
and Biblioteca to the right; Sala de Estar with Cozinha and Jardim; Biblioteca
with Escritorio and Porao; the four last rooms with no way out. No link holds
the address of the hall, every other room has its address in exactly one link,
and following the links for more levels shows no further room. -/
theorem mapa_da_mansao :
    mansao =
      .no (txt "Hall de entrada")
        (.no (txt "Sala de Estar")
          (.no (txt "Cozinha") .nulo .nulo) (.no (txt "Jardim") .nulo .nulo))
        (.no (txt "Biblioteca")
          (.no (txt "Escritorio") .nulo .nulo) (.no (txt "Porao") .nulo .nulo)) ∧
    mansao.tamanho = 7 ∧ mansao.altura = 3 ∧
    construirMapa.1.length = 7 ∧ construirMapa.2 = 1 ∧
    ligacoesPara construirMapa.1 construirMapa.2 = 0 ∧
    (∀ p ∈ [2, 3, 4, 5, 6, 7], ligacoesPara construirMapa.1 p = 1) ∧
    (∀ r ∈ construirMapa.1, r.esq ≤ 7 ∧ r.dir ≤ 7) ∧
    arvoreDe 20 construirMapa.1 construirMapa.2 = mansao := by
  decide

/-- C15. `liberarArvore` releases nothing for a null root, and for a room it
releases the left subtree, then the right subtree, then the room itself. For
every tree the places released are exactly the places of its rooms, none is
released twice, as many are released as the tree has rooms, and whatever is
released after a room is neither that room nor a room below it. For the mansion
the seven rooms are released, Cozinha first and the hall last, and `main`
releases them so whatever the input of the exploration was. -/
theorem liberarArvore_pos_ordem (raiz : Sala) (aqui : List Bool) (nome : List Nat)
    (e d : Sala) (entrada : List Nat) :
    liberarArvore aqui .nulo = [] ∧
    liberarArvore aqui (.no nome e d) =
      liberarArvore (aqui ++ [false]) e ++ liberarArvore (aqui ++ [true]) d ++ [aqui] ∧
    (∀ p, p ∈ liberarArvore [] raiz ↔ (raiz.em p).presente = true) ∧
    (liberarArvore [] raiz).Nodup ∧
    (liberarArvore [] raiz).length = raiz.tamanho ∧
    (liberarArvore [] raiz).Pairwise (fun p q => ¬ p <+: q) ∧
    liberarArvore [] mansao =
      [[false, false], [false, true], [false], [true, false], [true, true], [true], []] ∧
    (liberarArvore [] mansao).length = 7 ∧
    ∃ r, mainCompleto entrada = some r ∧ r.2.2 = liberarArvore [] mansao := by
  refine ⟨rfl, rfl, ?_, ?_, liberarArvore_length raiz [], liberarArvore_ordem raiz [],
    by decide, by decide, ?_⟩
  · intro p
    rw [mem_liberarArvore]
    simp
  · refine (liberarArvore_ordem raiz []).imp ?_
    intro a b h hab
    exact h (hab ▸ List.prefix_refl a)
  · obtain ⟨f, _, hf, _⟩ := explorarSalas_termina mansao entrada cabecalho (by decide)
    refine ⟨(f.saida ++ txt "\nObrigado por jogar!\n", f.entrada, liberarArvore [] mansao),
      ?_, rfl⟩
    simp only [mainCompleto, main, hf, Option.map_some']

/-- C17. At the top of every pass of a session the current room is a room of the
tree, found by following links from the root, and the trail is the first 1023
bytes of the names of the rooms on the way from the root to it, in order, joined
by the separator; so while that text has at most 1023 bytes the trail is exactly
it. The names on the way are one more than the links followed. The trail of
every later pass, and the trail at the end, start with the trail of this pass. -/
theorem trilha_e_o_caminho (raiz : Sala) (s : Estado) (hs : Alcancavel raiz s) :
    ∃ caminho, raiz.em caminho = s.atual ∧ s.atual.presente = true ∧
      s.trilha = (juntar (nomesAte raiz caminho)).take 1023 ∧
      ((juntar (nomesAte raiz caminho)).length ≤ 1023 →
        s.trilha = juntar (nomesAte raiz caminho)) ∧
      (nomesAte raiz caminho).length = caminho.length + 1 ∧
      (∀ k s', avancar k s = some s' → s.trilha <+: s'.trilha) ∧
      (∀ n g, laco n s = some g → s.trilha <+: g.trilha) := by
  obtain ⟨c, hc, hp, ht⟩ := alcancavel_caminho raiz s hs
  refine ⟨c, hc, hp, ht, ?_, nomesAte_length raiz c, fun k s' h => avancar_prefixo k s s' h,
    fun n g h => laco_prefixo n s g h⟩
  intro hlen
  rw [ht, List.take_of_length_le hlen]

/-- C17 in the mansion, at the pass after the move to Sala de Estar (input `e`,
`e`): the room is found from the hall, the trail is the two names on the way
joined by the separator, and the trail after the next move, to Cozinha, starts
with it. -/
theorem trilha_e_o_caminho_witness :
    (∃ caminho, mansao.em caminho = mansao.esq ∧
      txt "Hall de entrada -> Sala de Estar" = juntar (nomesAte mansao caminho) ∧
      (nomesAte mansao caminho).length = caminho.length + 1) ∧
    txt "Hall de entrada -> Sala de Estar" <+:
      txt "Hall de entrada -> Sala de Estar -> Cozinha" :=
  let ⟨c, hc, _, ht, hfit, hlen, hav, _⟩ :=
    trilha_e_o_caminho mansao
      { atual := mansao.esq
        trilha := txt "Hall de entrada -> Sala de Estar"
        entrada := txt "e\n"
        saida := (entrar mansao (txt "e\ne\n") []).saida ++ mostrarMenu mansao ++
          msgEntrou (txt "Sala de Estar") }
      (Alcancavel.passo (Alcancavel.primeira (txt "e\ne\n") [] (by decide)) rfl)
  ⟨⟨c, hc, hfit (take_curta _ _ 1023 ht (by decide)), hlen⟩,
   hav 1
     { atual := mansao.esq.esq
       trilha := txt "Hall de entrada -> Sala de Estar -> Cozinha"
       entrada := []
       saida := (entrar mansao (txt "e\ne\n") []).saida ++ mostrarMenu mansao ++
         msgEntrou (txt "Sala de Estar") ++ mostrarMenu mansao.esq ++
         msgEntrou (txt "Cozinha") }
     rfl⟩

/-- C18. For a capacity of at least 1 (a `size_t`) and a buffer whose content
fits it, `appendSeguro` leaves the old content followed by the first
`min(cap - 1 - len(dest), len(src))` bytes of the source: never more than
`cap - 1` bytes, the old content always at the front, and exactly the old
content followed by the whole source when both fit. -/
theorem appendSeguro_limitado (dest src : List Nat) (cap : Nat) (h1 : 1 ≤ cap)
    (h2 : cap < SIZE_MOD) (hd : dest.length ≤ cap - 1) :
    appendSeguro dest cap src
      = dest ++ src.take (min (cap - 1 - dest.length) src.length) ∧
    (appendSeguro dest cap src).length ≤ cap - 1 ∧
    dest <+: appendSeguro dest cap src ∧
    (dest.length + src.length ≤ cap - 1 → appendSeguro dest cap src = dest ++ src) := by
  have ht := appendSeguro_take dest src cap h1 (Nat.le_of_lt h2) hd
  have he : appendSeguro dest cap src
      = dest ++ src.take (min (cap - 1 - dest.length) src.length) := by
    have hk : src.take (min (cap - 1 - dest.length) src.length)
        = src.take (cap - 1 - dest.length) := by
      by_cases h : cap - 1 - dest.length ≤ src.length
      · rw [Nat.min_eq_left h]
      · rw [Nat.min_eq_right (by omega), List.take_length, List.take_of_length_le (by omega)]
    rw [ht, List.take_append_eq_append_take, List.take_of_length_le hd, hk]
  refine ⟨he, ?_, appendSeguro_prefixo dest src cap, ?_⟩
  · rw [ht, List.length_take]
    omega
  · intro hc
    rw [ht]
    exact List.take_of_length_le (by rw [List.length_append]; omega)

/-- C18 on the buffer `ab` of capacity 8 and the source `cde`. -/
theorem appendSeguro_limitado_witness :
    appendSeguro (txt "ab") 8 (txt "cde") = txt "abcde" ∧
    (appendSeguro (txt "ab") 8 (txt "cde")).length ≤ 8 - 1 :=
  ⟨(appendSeguro_limitado (txt "ab") (txt "cde") 8 (by decide) (by decide) (by decide)).2.2.2
      (by decide),
   (appendSeguro_limitado (txt "ab") (txt "cde") 8 (by decide) (by decide) (by decide)).2.1⟩

set_option maxRecDepth 8000 in
/-- C19, as stated, fails. A root with an empty name and no way out is a present
root, and its session ends with an empty trail: the closing section prints the
marker `(nenhuma)`. -/
theorem marcador_nenhuma_e_alcancavel :
    salaSemNome.presente = true ∧
    explorarSalas salaSemNome (txt "e\n") [] = some
      { atual := salaSemNome
        trilha := []
        entrada := txt "e\n"
        saida := txt "\n>>> Voce entrou em: \n" ++ msgSemSaida ++
          txt "\n--- Salas visitadas ---\n(nenhuma)\n" } := by
  decide

/-- C19, amended. For every tree whose root is present and has a name that is
not empty, and every input, the trail is not empty at the top of any pass nor at
the end of the loop, and the closing section prints the heading, the trail
recorded and a newline, not the marker `(nenhuma)`. -/
theorem secao_final_imprime_a_trilha (raiz : Sala) (hp : raiz.presente = true)
    (hn : raiz.nome ≠ []) (entrada saida : List Nat) :
    (∀ s, Alcancavel raiz s → s.trilha ≠ []) ∧
    ∃ g, laco (entrada.length + 1) (entrar raiz entrada saida) = some g ∧
      g.trilha ≠ [] ∧
      msgVisitadas g.trilha = txt "\n--- Salas visitadas ---\n" ++ g.trilha ++ txt "\n" ∧
      explorarSalas raiz entrada saida = some
        { atual := g.atual
          trilha := g.trilha
          entrada := g.entrada
          saida := g.saida ++ (txt "\n--- Salas visitadas ---\n" ++ g.trilha ++ txt "\n") } := by
  have h0 : appendSeguro [] CAP raiz.nome ≠ [] := by
    rw [appendSeguro_CAP [] raiz.nome (by simp)]
    cases hnome : raiz.nome with
    | nil => exact absurd hnome hn
    | cons c cs => simp
  have hpre : ∀ t : List Nat, appendSeguro [] CAP raiz.nome <+: t → t ≠ [] := by
    intro t ht hnil
    rw [hnil] at ht
    exact h0 (List.prefix_nil.mp ht)
  refine ⟨fun s hs => hpre _ (alcancavel_prefixo raiz s hs), ?_⟩
  obtain ⟨g, s, hex, hg, _, _, _⟩ := explorarSalas_fim raiz entrada saida hp
  have hgt : g.trilha ≠ [] := hpre _ (laco_prefixo _ _ g hg)
  have hm : msgVisitadas g.trilha
      = txt "\n--- Salas visitadas ---\n" ++ g.trilha ++ txt "\n" := by
    cases hgc : g.trilha with
    | nil => exact absurd hgc hgt
    | cons c cs => rfl
  refine ⟨g, hg, hgt, hm, ?_⟩
  rw [hex, concluir, hm]

/-- C19 amended, on the mansion with the line `s`. -/
theorem secao_final_imprime_a_trilha_witness :
    (∀ s, Alcancavel mansao s → s.trilha ≠ []) ∧
    ∃ g, laco ((txt "s\n").length + 1) (entrar mansao (txt "s\n") []) = some g ∧
      g.trilha ≠ [] ∧
      msgVisitadas g.trilha = txt "\n--- Salas visitadas ---\n" ++ g.trilha ++ txt "\n" ∧
      explorarSalas mansao (txt "s\n") [] = some
        { atual := g.atual
          trilha := g.trilha
          entrada := g.entrada
          saida := g.saida ++ (txt "\n--- Salas visitadas ---\n" ++ g.trilha ++ txt "\n") } :=
  secao_final_imprime_a_trilha mansao (by decide) (by decide) (txt "s\n") []

end DetectiveQuest
